import Mathlib

/-!
# Verification of `swh-alter` (Software Heritage archive alteration)

A shallow embedding of the parts of `swh-alter` needed to check the
natural-language specification:

* `swh/alter/operations.py` (the `Remover` orchestrator) is embedded
  directly from the Python source.
* The subgraph data structure and the recovery-bundle / secret-sharing
  layer are not shipped in this source tree (only their tests and callers
  are); those parts are modelled from the specification, as marked by the
  doc comments starting with `Modelled from the spec:`.

Machine integers do not occur in the modelled fragment; identifiers are
modelled as `String`/`Nat` and field arithmetic for the secret sharing is
over an arbitrary `Field`.
-/

namespace SwhAlter

/-- The eight variants of extended SWHIDs
(`swh.model.swhids.ExtendedObjectType`). -/
inductive ExtendedObjectType where
  | content
  | directory
  | revision
  | release
  | snapshot
  | origin
  | rawExtrinsicMetadata
  | extid
deriving DecidableEq, Repr

/-- An extended SWHID: a tagged identifier `(object_type, object_id)`
(`swh.model.swhids.ExtendedSWHID`).  The 20-byte object id is modelled
as a `Nat`. -/
structure ExtendedSWHID where
  objectType : ExtendedObjectType
  objectId : Nat
deriving DecidableEq, Repr

/-- Composite object identifier used by the object storage
(`swh.objstorage.interface.CompositeObjId`), modelled opaquely. -/
structure CompositeObjId where
  id : Nat
deriving DecidableEq, Repr

/-! ## Remover state (`swh/alter/operations.py`)

`Remover.__init__` sets up registers for the deletion phase:
`swhids_to_remove`, `objids_to_remove`, `origin_urls_to_remove` and
`journal_objects_to_remove` (a mapping object-kind → keys, embedded as an
association list in insertion order). -/

/-- A key in the journal register (`swh.model.model.KeyType`), modelled
opaquely. -/
structure JournalKey where
  key : Nat
deriving DecidableEq, Repr

/-- The registers of `Remover` populated by `register_object` and consumed
by the deletion phase (`operations.py`, `Remover.__init__`). -/
structure RemoverState where
  swhids_to_remove : List ExtendedSWHID
  objids_to_remove : List CompositeObjId
  origin_urls_to_remove : List String
  journal_objects_to_remove : List (String × List JournalKey)
deriving Repr

/-- `STORAGE_OBJECT_DELETE_CHUNK_SIZE` (`operations.py`, line 51). -/
def STORAGE_OBJECT_DELETE_CHUNK_SIZE : Nat := 200

/-- `swh.core.utils.grouper`: split a list into consecutive chunks of at
most `n` elements (the external helper used by `Remover.remove_from_storage`
and `create_recovery_bundle`; every call site uses a positive chunk size,
so the `n = 0` branch is arbitrary). -/
def grouper (l : List α) (n : Nat) : List (List α) :=
  match n, l with
  | 0, _ => [l]
  | _ + 1, [] => []
  | m + 1, x :: xs => (x :: xs.take m) :: grouper (xs.drop m) (m + 1)
termination_by l.length
decreasing_by
  simp [List.length_drop]
  omega

/-- `Remover.remove_from_storage`: the successive argument lists passed to
`removal_storage.object_delete`, one call per chunk produced by
`grouper(self.swhids_to_remove, STORAGE_OBJECT_DELETE_CHUNK_SIZE)`
(`operations.py`, lines 263–281). -/
def object_delete_calls (swhids_to_remove : List ExtendedSWHID) :
    List (List ExtendedSWHID) :=
  grouper swhids_to_remove STORAGE_OBJECT_DELETE_CHUNK_SIZE

/-- `Remover.have_new_references` (`operations.py`, lines 325–341): scan the
set of removed SWHIDs, skip origins, and report whether
`storage.object_find_recent_references` (queried with limit 9 999 999,
embedded as the function `refs`) returns any referrer outside the removed
set. -/
def have_new_references (refs : ExtendedSWHID → List ExtendedSWHID)
    (removed_swhids : List ExtendedSWHID) : Bool :=
  removed_swhids.any fun swhid =>
    if swhid.objectType = ExtendedObjectType.origin then false
    else !((refs swhid).all fun r => removed_swhids.contains r)

/-! ## The deletion phase as a trace of backend calls

`Remover.remove` (`operations.py`, lines 251–261) runs, in program order:
every configured search, then every configured storage, then every
configured journal, then every configured object storage, and finally the
post-deletion reference check.  Each backend call is recorded as an event
so that ordering and batching can be stated. -/

/-- One externally visible backend call of the deletion phase. -/
inductive DeletionEvent where
  /-- `search.origin_delete(origin_url)` in `remove_from_search`. -/
  | searchOriginDelete (backend : String) (url : String)
  /-- `search.flush()` at the end of `remove_from_search`. -/
  | searchFlush (backend : String)
  /-- `removal_storage.object_delete(chunk_swhids)` in `remove_from_storage`. -/
  | storageObjectDelete (backend : String) (swhids : List ExtendedSWHID)
  /-- `journal_writer.delete(object_type, keys)` in `remove_from_journal`. -/
  | journalDelete (backend : String) (objectType : String) (keys : List JournalKey)
  /-- `journal_writer.flush()` at the end of `remove_from_journal`. -/
  | journalFlush (backend : String)
  /-- `objstorage.delete(objid)` in `remove_from_objstorage`;
  `found` is false when the call raises `ObjNotFoundError`. -/
  | objstorageDelete (backend : String) (objid : CompositeObjId) (found : Bool)
deriving DecidableEq, Repr

/-- Rank of the four backend kinds in the order `remove` processes them. -/
def DeletionEvent.kindRank : DeletionEvent → Nat
  | .searchOriginDelete _ _ => 0
  | .searchFlush _ => 0
  | .storageObjectDelete _ _ => 1
  | .journalDelete _ _ _ => 2
  | .journalFlush _ => 2
  | .objstorageDelete _ _ _ => 3

/-- The configured deletion backends (`Remover.__init__`): search and
storage and journal backends are identified by name; an object storage
additionally carries which composite ids it holds (`objstorage.delete`
raises `ObjNotFoundError` exactly on the ids it does not hold). -/
structure RemovalBackends where
  removal_searches : List String
  removal_storages : List String
  removal_journals : List String
  removal_objstorages : List (String × (CompositeObjId → Bool))

/-- `Remover.remove_from_search` (`operations.py`, lines 296–305):
one `origin_delete` per registered origin URL, then one `flush`. -/
def remove_from_search (name : String) (st : RemoverState) : List DeletionEvent :=
  (st.origin_urls_to_remove.map fun url => .searchOriginDelete name url)
    ++ [.searchFlush name]

/-- `Remover.remove_from_storage` (`operations.py`, lines 263–281):
one `object_delete` per chunk of `grouper(swhids_to_remove, 200)`. -/
def remove_from_storage (name : String) (st : RemoverState) : List DeletionEvent :=
  (object_delete_calls st.swhids_to_remove).map fun chunk =>
    .storageObjectDelete name chunk

/-- `Remover.remove_from_journal` (`operations.py`, lines 283–294):
one `delete` per registered object kind, then one `flush`. -/
def remove_from_journal (name : String) (st : RemoverState) : List DeletionEvent :=
  (st.journal_objects_to_remove.map fun kv =>
    .journalDelete name kv.1 kv.2) ++ [.journalFlush name]

/-- `Remover.remove_from_objstorage` (`operations.py`, lines 307–323):
one `delete` per registered composite id; a raised `ObjNotFoundError` is
caught and logged (`found = false`) and the loop continues. -/
def remove_from_objstorage (name : String) (present : CompositeObjId → Bool)
    (st : RemoverState) : List DeletionEvent :=
  st.objids_to_remove.map fun objid => .objstorageDelete name objid (present objid)

/-- `objstorage.delete(objid)` (§6): raises `ObjNotFoundError` (the
`error` case) exactly when the object store does not hold the id. -/
def objstorage_delete (present : CompositeObjId → Bool)
    (objid : CompositeObjId) : Except Unit Unit :=
  if present objid then .ok () else .error ()

/-- The loop body of `Remover.remove_from_objstorage` (`operations.py`,
lines 310–323): for each registered id, try `objstorage.delete`;
increment `count` on success; catch `ObjNotFoundError`, log the id and
continue.  Returns the final count and the log of ids reported missing;
no error propagates out of the loop. -/
def remove_from_objstorage_loop (present : CompositeObjId → Bool) :
    List CompositeObjId → Nat × List CompositeObjId
  | [] => (0, [])
  | objid :: rest =>
    match objstorage_delete present objid with
    | .ok _ =>
      let r := remove_from_objstorage_loop present rest
      (r.1 + 1, r.2)
    | .error _ =>
      let r := remove_from_objstorage_loop present rest
      (r.1, objid :: r.2)

/-- `Remover.remove` (`operations.py`, lines 251–261): the full deletion
phase trace followed by the post-deletion check; the second component is
true exactly when `RemoverError("New references have been added to removed
objects")` is raised. -/
def remove (b : RemovalBackends) (st : RemoverState)
    (refs : ExtendedSWHID → List ExtendedSWHID) :
    List DeletionEvent × Bool :=
  ((b.removal_searches.flatMap fun name => remove_from_search name st)
    ++ (b.removal_storages.flatMap fun name => remove_from_storage name st)
    ++ (b.removal_journals.flatMap fun name => remove_from_journal name st)
    ++ (b.removal_objstorages.flatMap fun no =>
          remove_from_objstorage no.1 no.2 st),
   have_new_references refs st.swhids_to_remove)

/-! ## Registration of deletion targets (`Remover.register_object`) and
resuming from a recovery bundle (`Remover.register_objects_from_bundle`) -/

/-- The kinds of archived objects a recovery bundle stores
(the iterators exposed by `RecoveryBundle`). -/
inductive BundleObjectKind where
  | content
  | skippedContent
  | directory
  | revision
  | release
  | snapshot
  | origin
  | originVisit
  | originVisitStatus
  | rawExtrinsicMetadata
  | extid
deriving DecidableEq, Repr

/-- `str(obj.object_type)`, the journal topic key used by
`register_object`. -/
def BundleObjectKind.name : BundleObjectKind → String
  | .content => "content"
  | .skippedContent => "skipped_content"
  | .directory => "directory"
  | .revision => "revision"
  | .release => "release"
  | .snapshot => "snapshot"
  | .origin => "origin"
  | .originVisit => "origin_visit"
  | .originVisitStatus => "origin_visit_status"
  | .rawExtrinsicMetadata => "raw_extrinsic_metadata"
  | .extid => "extid"

/-- An object as handled by `Remover.register_object`
(`Union[HasSwhid, HasUniqueKey]`):

* `swhidAttr = none` models an object without a `swhid` attribute
  (`OriginVisit`, `OriginVisitStatus`);
* `swhidAttr = some none` models `obj.swhid()` returning `None`
  (possible for `SkippedContent`);
* `swhidAttr = some (some s)` gives the (extended form of the) SWHID.

`uniqueKey` is `obj.unique_key()`; `url` is `Origin.url` (meaningful for
origins); `objid` is `objid_from_dict(content.to_dict())` (meaningful for
contents). -/
structure ArchiveObject where
  kind : BundleObjectKind
  swhidAttr : Option (Option ExtendedSWHID)
  uniqueKey : JournalKey
  url : String
  objid : CompositeObjId
deriving DecidableEq, Repr

/-- Append `v` to the entry of `k` in an association list of lists,
creating the entry at the end when missing
(`collections.defaultdict(list)` followed by `.append`). -/
def journalAppend (l : List (String × List JournalKey)) (k : String)
    (v : JournalKey) : List (String × List JournalKey) :=
  match l with
  | [] => [(k, [v])]
  | (k', vs) :: rest =>
    if k' = k then (k', vs ++ [v]) :: rest
    else (k', vs) :: journalAppend rest k v

/-- `Remover.register_object` (`operations.py`, lines 119–141): record the
object in the storage, objstorage, journal and search registers. -/
def register_object (st : RemoverState) (obj : ArchiveObject) : RemoverState :=
  let st :=
    match obj.swhidAttr with
    | some (some swhid) =>
      { st with
        swhids_to_remove := st.swhids_to_remove ++ [swhid]
        objids_to_remove :=
          if swhid.objectType = ExtendedObjectType.content then
            st.objids_to_remove ++ [obj.objid]
          else st.objids_to_remove }
    | _ => st
  let st :=
    { st with
      journal_objects_to_remove :=
        journalAppend st.journal_objects_to_remove obj.kind.name obj.uniqueKey }
  if obj.kind = BundleObjectKind.origin then
    { st with origin_urls_to_remove := st.origin_urls_to_remove ++ [obj.url] }
  else st

/-- The contents of a recovery bundle as seen through the `RecoveryBundle`
iterators used by `register_objects_from_bundle`: one list per object
kind, with origin visits and visit statuses reachable per origin URL
(`bundle.origin_visits(origin)` / `bundle.origin_visit_statuses(origin)`).
Version-1 bundles have empty `raw_extrinsic_metadata` and `extids`. -/
structure BundleReader where
  version : Nat
  contents : List ArchiveObject
  skipped_contents : List ArchiveObject
  directories : List ArchiveObject
  revisions : List ArchiveObject
  releases : List ArchiveObject
  snapshots : List ArchiveObject
  origins : List ArchiveObject
  origin_visits : List (String × List ArchiveObject)
  origin_visit_statuses : List (String × List ArchiveObject)
  raw_extrinsic_metadata : List ArchiveObject
  extids : List ArchiveObject

/-- The visits stored for one origin (`bundle.origin_visits(origin)`). -/
def BundleReader.visitsOf (b : BundleReader) (url : String) : List ArchiveObject :=
  (b.origin_visits.lookup url).getD []

/-- The visit statuses stored for one origin
(`bundle.origin_visit_statuses(origin)`). -/
def BundleReader.statusesOf (b : BundleReader) (url : String) : List ArchiveObject :=
  (b.origin_visit_statuses.lookup url).getD []

/-- The objects `register_objects_from_bundle` iterates, in program order
(`operations.py`, lines 160–181): the `itertools.chain` of contents,
skipped contents, directories, revisions, releases and snapshots, then
each origin followed by its visits and visit statuses.  `bundle.extids()`
and `bundle.raw_extrinsic_metadata()` are not part of the iteration. -/
def BundleReader.iterated (b : BundleReader) : List ArchiveObject :=
  b.contents ++ b.skipped_contents ++ b.directories ++ b.revisions
    ++ b.releases ++ b.snapshots
    ++ (b.origins.flatMap fun origin =>
          origin :: (b.visitsOf origin.url ++ b.statusesOf origin.url))

/-- Every object stored in the bundle, including the `ExtID` and
`RawExtrinsicMetadata` objects of version-2 bundles. -/
def BundleReader.allObjects (b : BundleReader) : List ArchiveObject :=
  b.iterated ++ b.extids ++ b.raw_extrinsic_metadata

/-- `Remover.register_objects_from_bundle` (`operations.py`, lines
142–181): re-populate the deletion registers by calling `register_object`
on each iterated object, starting from the registers of a freshly
constructed `Remover` (all empty). -/
def register_objects_from_bundle (b : BundleReader) : RemoverState :=
  b.iterated.foldl register_object
    ⟨[], [], [], []⟩

/-- All journal keys registered in a `RemoverState`, over all object
kinds. -/
def RemoverState.journalKeys (st : RemoverState) : List JournalKey :=
  (st.journal_objects_to_remove.map Prod.snd).flatten

/-- The deletion registers cover an object: its SWHID (if any) is
registered for storage deletion, its composite id for objstorage
deletion when it is a content, its unique key for the journal, and its
URL for search when it is an origin — so the deletion phase reaches the
object in every configured backend. -/
def RemoverState.covers (st : RemoverState) (o : ArchiveObject) : Prop :=
  (match o.swhidAttr with
   | some (some s) =>
     s ∈ st.swhids_to_remove ∧
       (s.objectType = ExtendedObjectType.content → o.objid ∈ st.objids_to_remove)
   | _ => True)
  ∧ o.uniqueKey ∈ st.journalKeys
  ∧ (o.kind = BundleObjectKind.origin → o.url ∈ st.origin_urls_to_remove)

/-- A version-2 recovery bundle holding a single `ExtID` object
(`extids/…`) and nothing else. -/
def extidOnlyBundle : BundleReader :=
  { version := 2
    contents := [], skipped_contents := [], directories := []
    revisions := [], releases := [], snapshots := []
    origins := [], origin_visits := [], origin_visit_statuses := []
    raw_extrinsic_metadata := []
    extids := [⟨BundleObjectKind.extid,
                some (some ⟨ExtendedObjectType.extid, 0xfa73⟩),
                ⟨0xfa73⟩, "", ⟨0⟩⟩] }

/-! ## The subgraph data structure

Modelled from the spec: `swh/alter/subgraph.py` is not part of this
source tree (only `tests/test_subgraph.py` is).  The model follows §4.1
of the specification and the behaviour its tests pin down: a directed
graph whose vertices are keyed by a unique `name`, with an optional
`swhid` attribute; `add_vertex` is idempotent on the name (merging
attributes); `add_edge` requires both endpoints to exist and rejects a
duplicate edge unless `skip_duplicates` is set. -/

/-- A subgraph vertex: unique `name` plus the `swhid` attribute
(present on every vertex created through `add_swhid`). -/
structure SubgraphVertex where
  name : String
  swhid : Option ExtendedSWHID
deriving DecidableEq, Repr

/-- Modelled from the spec: the `Subgraph` class of
`swh/alter/subgraph.py` — vertices in insertion order (indexed like
`igraph` by position) and directed edges as pairs of vertex indices. -/
structure Subgraph where
  vs : List SubgraphVertex
  es : List (Nat × Nat)
deriving DecidableEq, Repr

/-- The empty subgraph (`Subgraph()`). -/
def Subgraph.empty : Subgraph := ⟨[], []⟩

/-- Modelled from the spec: `Subgraph.add_vertex` — idempotent on the
vertex name; on an existing vertex later attribute values win; returns
the vertex (here: its index). -/
def Subgraph.add_vertex (g : Subgraph) (name : String)
    (swhid : Option ExtendedSWHID) : Subgraph × Nat :=
  match g.vs.findIdx? (fun v => v.name = name) with
  | some i =>
    ({ g with
       vs := g.vs.map fun v =>
         if v.name = name then
           { v with swhid := swhid.or v.swhid }
         else v }, i)
  | none => ({ g with vs := g.vs ++ [⟨name, swhid⟩] }, g.vs.length)

/-- Modelled from the spec: `Subgraph.add_edge(src, tgt, *,
skip_duplicates=False)` — both endpoints must exist, a duplicate edge
raises `ValueError` unless `skip_duplicates`; no other check is
performed. -/
def Subgraph.add_edge (g : Subgraph) (src tgt : Nat)
    (skip_duplicates : Bool) : Except String Subgraph :=
  if src < g.vs.length ∧ tgt < g.vs.length then
    if (src, tgt) ∈ g.es then
      if skip_duplicates then .ok g else .error "edge already exists"
    else .ok { g with es := g.es ++ [(src, tgt)] }
  else .error "no such vertex"

/-- The fixed object-type iteration order of `select_ordered` (§4.1):
Origin → Snapshot → Release → Revision → Directory → Content → ExtID →
RawExtrinsicMetadata. -/
def selectOrderedTypes : List ExtendedObjectType :=
  [.origin, .snapshot, .release, .revision, .directory, .content,
   .extid, .rawExtrinsicMetadata]

/-- Position of an object type in the `select_ordered` iteration order. -/
def ExtendedObjectType.rank : ExtendedObjectType → Nat
  | .origin => 0
  | .snapshot => 1
  | .release => 2
  | .revision => 3
  | .directory => 4
  | .content => 5
  | .extid => 6
  | .rawExtrinsicMetadata => 7

/-- Modelled from the spec: `Subgraph.select_ordered()` — iterate the
vertices grouped by object type, in the fixed order of
`selectOrderedTypes`. -/
def Subgraph.select_ordered (g : Subgraph) : List SubgraphVertex :=
  selectOrderedTypes.flatMap fun t =>
    g.vs.filter fun v => v.swhid.map (·.objectType) = some t

/-- The object-type rank of a vertex (vertices without a `swhid`
attribute are ranked last; `select_ordered` never emits them). -/
def SubgraphVertex.rank (v : SubgraphVertex) : Nat :=
  match v.swhid with
  | some s => s.objectType.rank
  | none => 8

/-- A vertex-building or edge-building operation on a subgraph
(`add_swhid` reduces to `add_vertex` with the `swhid` attribute set). -/
inductive SubgraphOp where
  | addVertex (name : String) (swhid : Option ExtendedSWHID)
  | addEdge (src tgt : Nat) (skip_duplicates : Bool)
deriving DecidableEq, Repr

/-- Apply one operation, propagating `add_edge` errors. -/
def Subgraph.applyOp (g : Subgraph) : SubgraphOp → Except String Subgraph
  | .addVertex name swhid => .ok (g.add_vertex name swhid).1
  | .addEdge src tgt skip => g.add_edge src tgt skip

/-- Run a sequence of `add_vertex`/`add_edge` operations from a given
subgraph, stopping at the first error. -/
def Subgraph.runOps (g : Subgraph) : List SubgraphOp → Except String Subgraph
  | [] => .ok g
  | op :: ops => do Subgraph.runOps (← g.applyOp op) ops

/-- The operation sequence of `test_add_edge_fails_on_duplicate`
(`tests/test_subgraph.py`, lines 130–137): two `add_vertex` calls with
the same name return the same vertex, and an edge is then added between
them — that is, from the single vertex to itself. -/
def selfLoopOps : List SubgraphOp :=
  [.addVertex "a vertex" none, .addVertex "a vertex" none,
   .addEdge 0 0 false]

/-! ## Secret sharing and the recovery bundle key layer

Modelled from the spec: `swh/alter/recovery_bundle.py` is not part of
this source tree (only `tests/test_recovery_bundle.py` and the callers in
`operations.py`/`cli.py` are).  Following §4.6 and §9 of the
specification:

* the external `age` tool is an opaque pipe — encryption to a public key,
  decryption succeeding exactly with the matching key; an identity is
  modelled as a `Nat` shared by both halves of the keypair;
* the object-decryption key that gets split is a 32-byte secret, modelled
  as an element of an arbitrary field `F` (the spec's fallback primitive
  is Shamir sharing over a finite field);
* the SLIP-0039-style two-level split: a group-level Shamir polynomial
  with constant term the secret and threshold `minimum_required_groups`,
  and one member-level polynomial per group with constant term the
  group's share and threshold that group's `minimum_required_shares`;
  each mnemonic records the common random identifier, its group index and
  member index, and both encoded thresholds. -/

/-- An `age` ciphertext sealed to a recipient key of type `κ`. -/
structure Sealed (κ : Type) (π : Type) where
  recipient : κ
  payload : π
deriving DecidableEq, Repr

/-- Modelled from the spec: `age_encrypt` — seal a payload to a public
key (the `age` tool treated as an opaque pipe). -/
def age_encrypt (pk : κ) (payload : π) : Sealed κ π := ⟨pk, payload⟩

/-- Modelled from the spec: `age_decrypt` — decryption succeeds exactly
when the secret key matches the recipient of the ciphertext. -/
def age_decrypt [DecidableEq κ] (sk : κ) (ct : Sealed κ π) : Option π :=
  if ct.recipient = sk then some ct.payload else none

/-- One share mnemonic of a SLIP-0039-style split (§4.6: the first two
words are a random identifier common to all shares of one split, the
third word encodes the group index; the encoded thresholds are used by
recovery). -/
structure Mnemonic (F : Type) where
  identifier : Nat
  group_threshold : Nat
  group_index : Nat
  member_threshold : Nat
  member_index : Nat
  value : F
deriving DecidableEq, Repr

/-- The share slot a mnemonic belongs to. -/
def Mnemonic.slot (m : Mnemonic F) : Nat × Nat :=
  (m.group_index, m.member_index)

/-- One group of the secret-sharing configuration (§3):
`minimum_required_shares ≥ 1` and the mapping share-id → public key. -/
structure SecretSharingGroup where
  minimum_required_shares : Nat
  recipient_keys : List (String × Nat)
deriving DecidableEq, Repr

/-- The two-level secret-sharing configuration (§3). -/
structure SecretSharing where
  minimum_required_groups : Nat
  groups : List (String × SecretSharingGroup)
deriving DecidableEq, Repr

/-- All share identifiers of a configuration, over all groups. -/
def SecretSharing.share_ids (cfg : SecretSharing) : List String :=
  cfg.groups.flatMap fun g => g.2.recipient_keys.map Prod.fst

/-- All recipient public keys of a configuration, over all groups. -/
def SecretSharing.recipientKeys (cfg : SecretSharing) : List Nat :=
  cfg.groups.flatMap fun g => g.2.recipient_keys.map Prod.snd

/-- The group at a given index (the padding value is irrelevant: it is
only returned for out-of-range indices). -/
def SecretSharing.groupAt (cfg : SecretSharing) (gi : Nat) : SecretSharingGroup :=
  (cfg.groups[gi]?.map Prod.snd).getD ⟨1, []⟩

/-- Validity of a configuration (§3 global invariants and §7
`ValidationError`): thresholds at least one, share identifiers globally
unique, public keys globally unique. -/
def SecretSharing.valid (cfg : SecretSharing) : Prop :=
  1 ≤ cfg.minimum_required_groups
    ∧ (∀ g ∈ cfg.groups, 1 ≤ g.2.minimum_required_shares)
    ∧ cfg.share_ids.Nodup
    ∧ cfg.recipientKeys.Nodup

instance (cfg : SecretSharing) : Decidable cfg.valid := by
  unfold SecretSharing.valid; infer_instance

/-- The random inputs of one split: the common mnemonic identifier, the
tail coefficients of the group-level polynomial, and the tail
coefficients of each group's member-level polynomial. -/
structure SplitRandomness (F : Type) where
  identifier : Nat
  groupTail : Nat → F
  memberTail : Nat → Nat → F

/-- Horner evaluation of a polynomial given by its coefficient list
(constant term first). -/
def evalPoly [Field F] (coeffs : List F) (x : F) : F :=
  match coeffs with
  | [] => 0
  | c :: cs => c + x * evalPoly cs x

/-- The group-level polynomial: constant term the secret, and
`minimum_required_groups - 1` random tail coefficients. -/
def groupPolyCoeffs [Field F] (cfg : SecretSharing) (rand : SplitRandomness F)
    (sk : F) : List F :=
  sk :: (List.range (cfg.minimum_required_groups - 1)).map rand.groupTail

/-- The share of group `gi`: the group polynomial evaluated at
`gi + 1`. -/
def groupSecret [Field F] (cfg : SecretSharing) (rand : SplitRandomness F)
    (sk : F) (gi : Nat) : F :=
  evalPoly (groupPolyCoeffs cfg rand sk) ((gi + 1 : Nat) : F)

/-- The member-level polynomial of group `gi`: constant term the group's
share, and `minimum_required_shares - 1` random tail coefficients. -/
def memberPolyCoeffs [Field F] (cfg : SecretSharing) (rand : SplitRandomness F)
    (sk : F) (gi : Nat) : List F :=
  groupSecret cfg rand sk gi ::
    (List.range ((cfg.groupAt gi).minimum_required_shares - 1)).map
      (rand.memberTail gi)

/-- The share value of member `mi` of group `gi`: the member polynomial
evaluated at `mi + 1`. -/
def shareValue [Field F] (cfg : SecretSharing) (rand : SplitRandomness F)
    (sk : F) (gi mi : Nat) : F :=
  evalPoly (memberPolyCoeffs cfg rand sk gi) ((mi + 1 : Nat) : F)

/-- The mnemonic handed to member `mi` of group `gi`. -/
def mnemonicFor [Field F] (cfg : SecretSharing) (rand : SplitRandomness F)
    (sk : F) (gi mi : Nat) : Mnemonic F :=
  ⟨rand.identifier, cfg.minimum_required_groups, gi,
   (cfg.groupAt gi).minimum_required_shares, mi,
   shareValue cfg rand sk gi mi⟩

/-- The share identifier of member `mi` of group `gi` (the padding
value is only returned for out-of-range indices). -/
def slotShareId (cfg : SecretSharing) (gi mi : Nat) : String :=
  (((cfg.groupAt gi).recipient_keys[mi]?).map Prod.fst).getD ""

/-- The public key of member `mi` of group `gi` (the padding value is
only returned for out-of-range indices). -/
def slotPublicKey (cfg : SecretSharing) (gi mi : Nat) : Nat :=
  (((cfg.groupAt gi).recipient_keys[mi]?).map Prod.snd).getD 0

/-- The encrypted shares of one split: each mnemonic sealed to its
holder's public key, keyed by share identifier. -/
def generatedShares [Field F] (cfg : SecretSharing) (rand : SplitRandomness F)
    (sk : F) : List (String × Sealed Nat (Mnemonic F)) :=
  (List.range cfg.groups.length).flatMap fun gi =>
    (List.range (cfg.groupAt gi).recipient_keys.length).map fun mi =>
      (slotShareId cfg gi mi,
       age_encrypt (slotPublicKey cfg gi mi) (mnemonicFor cfg rand sk gi mi))

/-- A mnemonic produced by the split of `sk` under `cfg` with randomness
`rand`: the mnemonic of one of the configuration's share slots. -/
def genuineMnemonic [Field F] (cfg : SecretSharing) (rand : SplitRandomness F)
    (sk : F) (m : Mnemonic F) : Prop :=
  ∃ gi, gi < cfg.groups.length ∧
    ∃ mi, mi < (cfg.groupAt gi).recipient_keys.length ∧
      m = mnemonicFor cfg rand sk gi mi

/-- A bound on every interpolation point the split uses: both the group
count and each group's member count. -/
def SecretSharing.indexBound (cfg : SecretSharing) : Nat :=
  max cfg.groups.length
    ((cfg.groups.map fun g => g.2.recipient_keys.length).foldr max 0)

/-- §7 `ValidationError` (malformed secret-sharing configuration). -/
inductive ValidationError where
  | invalidConfiguration
deriving DecidableEq, Repr

/-- Modelled from the spec:
`SecretSharing.generate_encrypted_shares(removal_identifier, secret_key)`
— validate the configuration (globally-unique share ids and public keys),
split, seal (§4.6). -/
def generate_encrypted_shares [Field F] (cfg : SecretSharing)
    (rand : SplitRandomness F) (sk : F) :
    Except ValidationError (List (String × Sealed Nat (Mnemonic F))) :=
  if cfg.valid then .ok (generatedShares cfg rand sk)
  else .error .invalidConfiguration

/-- §7 `SecretRecoveryError` (insufficient shares to reconstruct the
object-decryption key). -/
inductive SecretRecoveryError where
  | insufficientShares
deriving DecidableEq, Repr

/-- Keep the first occurrence of each key under `f`. -/
def dedupeOn [DecidableEq β] (f : α → β) : List α → List α
  | [] => []
  | x :: xs => x :: dedupeOn f (xs.filter fun y => f y ≠ f x)
termination_by l => l.length
decreasing_by
  simp
  exact Nat.lt_succ_of_le (List.length_filter_le _ _)

/-- Lagrange interpolation evaluated at `0`: the unique polynomial of
degree `< n` through `(x i, y i)` has value
`∑ i, y i * ∏ j ≠ i, (x i - x j)⁻¹ * (0 - x j)` at `0`. -/
def lagrangeZeroFn [Field F] (n : Nat) (x y : Fin n → F) : F :=
  ∑ i, y i * ∏ j ∈ Finset.univ.erase i, ((x i - x j)⁻¹ * (0 - x j))

/-- `lagrangeZeroFn` over a list of sample points. -/
def lagrangeZeroList [Field F] (pts : List (F × F)) : F :=
  lagrangeZeroFn pts.length (fun i => (pts.get i).1) (fun i => (pts.get i).2)

/-- The pool of mnemonics available to one recovery attempt: every share
that one of the available secret keys decrypts, plus the known mnemonics,
with duplicate share slots collapsed (SLIP-0039 combination treats the
shares as a set). -/
def recoveryPool [Field F]
    (shares : List (String × Sealed Nat (Mnemonic F)))
    (available : List (String × Nat))
    (known_mnemonics : List (Mnemonic F)) : List (Mnemonic F) :=
  dedupeOn Mnemonic.slot
    ((shares.filterMap fun s => available.findSome? fun k => age_decrypt k.2 s.2)
      ++ known_mnemonics)

/-- The pool mnemonics belonging to group `gi`. -/
def groupMnemonics [Field F] (pool : List (Mnemonic F)) (gi : Nat) :
    List (Mnemonic F) :=
  pool.filter fun m => m.group_index = gi

/-- The groups of the pool that reach their encoded member threshold. -/
def qualifiedGroups [Field F] (pool : List (Mnemonic F)) : List Nat :=
  (dedupeOn id (pool.map (·.group_index))).filter fun gi =>
    match groupMnemonics pool gi with
    | [] => false
    | m :: ms => m.member_threshold ≤ (m :: ms).length

/-- Reconstruct one group's share: interpolate the group's member-level
polynomial at `0` from the encoded member threshold of its mnemonics,
paired with the group's own interpolation point. -/
def recoverGroupPoint [Field F] (pool : List (Mnemonic F)) (gi : Nat) :
    Option (F × F) :=
  match groupMnemonics pool gi with
  | [] => none
  | m :: ms => some (((gi + 1 : Nat) : F),
      lagrangeZeroList (((m :: ms).take m.member_threshold).map
        fun mn => (((mn.member_index + 1 : Nat) : F), mn.value)))

/-- Modelled from the spec:
`recover_object_decryption_key_from_encrypted_shares(shares,
available_keys_iter, known_mnemonics)` (§4.6) — try each available
secret key against each encrypted share; every share that decrypts
contributes its mnemonic; together with the known mnemonics,
reconstruct when at least the encoded group threshold of groups each
reach their encoded member threshold, interpolating member-level then
group-level polynomials at `0`; otherwise raise `SecretRecoveryError`. -/
def recover_object_decryption_key_from_encrypted_shares [Field F]
    [DecidableEq F]
    (shares : List (String × Sealed Nat (Mnemonic F)))
    (available : List (String × Nat))
    (known_mnemonics : List (Mnemonic F) := []) :
    Except SecretRecoveryError F :=
  match recoveryPool shares available known_mnemonics with
  | [] => .error .insufficientShares
  | m₀ :: rest =>
    if m₀.group_threshold
        ≤ (qualifiedGroups (m₀ :: rest)).length then
      .ok (lagrangeZeroList
        (((qualifiedGroups (m₀ :: rest)).take m₀.group_threshold).filterMap
          (recoverGroupPoint (m₀ :: rest))))
    else .error .insufficientShares

/-- The slots of one configuration covered by a coalition: a slot is
covered when the coalition holds the secret key matching the slot's
public key, or a known mnemonic for that slot. -/
def coveredSlotB [Field F] [DecidableEq F] (cfg : SecretSharing)
    (availableKeys : List Nat) (known : List (Mnemonic F))
    (gi mi : Nat) : Bool :=
  availableKeys.contains (slotPublicKey cfg gi mi)
  || known.any fun m => m.slot = (gi, mi)

/-- How many distinct shares of group `gi` the coalition contributes. -/
def contributedCount [Field F] [DecidableEq F] (cfg : SecretSharing)
    (availableKeys : List Nat) (known : List (Mnemonic F)) (gi : Nat) : Nat :=
  ((List.range (cfg.groupAt gi).recipient_keys.length).filter fun mi =>
    coveredSlotB cfg availableKeys known gi mi).length

/-- A sufficient coalition (§4.6, §8 property 3): at least
`minimum_required_groups` groups each contribute at least their
`minimum_required_shares` distinct shares. -/
def sufficientCoalition [Field F] [DecidableEq F] (cfg : SecretSharing)
    (availableKeys : List Nat) (known : List (Mnemonic F)) : Prop :=
  cfg.minimum_required_groups ≤
    ((List.range cfg.groups.length).filter fun gi =>
      (cfg.groupAt gi).minimum_required_shares ≤
        contributedCount cfg availableKeys known gi).length

instance [Field F] [DecidableEq F] (cfg : SecretSharing)
    (availableKeys : List Nat) (known : List (Mnemonic F)) :
    Decidable (sufficientCoalition cfg availableKeys known) := by
  unfold sufficientCoalition; infer_instance

/-! ## The recovery bundle file and rollover

Modelled from the spec: the bundle file (§3, §4.4–4.6) is a container
with a manifest — `version`, `removal_identifier`, the ordered list of
backed-up SWHIDs in text form, and the encrypted decryption-key shares —
plus one entry per backed-up object, sealed to the object public key
(modelled, like the key itself, as an element of `F`). -/

/-- A recovery bundle file: manifest fields plus the encrypted object
entries (entry name → ciphertext of the serialized object). -/
structure RecoveryBundleFile (F : Type) where
  version : Nat
  removal_identifier : String
  swhids : List String
  decryption_key_shares : List (String × Sealed Nat (Mnemonic F))
  objects : List (String × Sealed F String)
deriving DecidableEq, Repr

/-- The share identifiers of a bundle (`RecoveryBundle.share_ids`). -/
def RecoveryBundleFile.shareIds (b : RecoveryBundleFile F) : List String :=
  b.decryption_key_shares.map Prod.fst

/-- Modelled from the spec: `RecoveryBundle.rollover(new_secret_sharing)`
(§4.6) — with the object-decryption key `key` recovered through the
bundle's key provider, generate a new set of encrypted shares for the new
configuration and rewrite the manifest; the object-decryption key is
unchanged and bundle contents are not re-encrypted. -/
def rollover [Field F] (b : RecoveryBundleFile F) (key : F)
    (cfg : SecretSharing) (rand : SplitRandomness F) :
    Except ValidationError (RecoveryBundleFile F) :=
  (generate_encrypted_shares cfg rand key).map fun shares =>
    { b with decryption_key_shares := shares }

/-- The directory holding a recovery bundle, as a tiny filesystem model:
the bundle files it contains, and whether the process may create files in
it (`os.chmod(tmp_path, 0o500)` in the test withdraws that right). -/
structure BundleFileSystem (F : Type) where
  bundles : String → Option (RecoveryBundleFile F)
  dir_writable : Bool

/-- Writing the rewritten bundle file: the replacement file can only be
created when the directory is writable; a failed creation raises
`OSError` and leaves the directory contents untouched. -/
def writeBundleFile [Field F] (fs : BundleFileSystem F) (path : String)
    (b : RecoveryBundleFile F) : Except String (BundleFileSystem F) :=
  if fs.dir_writable then
    .ok { fs with
          bundles := fun p => if p = path then some b else fs.bundles p }
  else .error "Permission denied"

/-- How `rollover` can fail. -/
inductive RolloverFailure where
  | osError
  | validationError
  | missingBundle
deriving DecidableEq, Repr

/-- Modelled from the spec: `rollover` as observed on disk — read the
bundle, recover its key (`key`, through the provider), compute the new
shares, then rewrite the bundle file; any failure is reported and makes
no change to the directory. -/
def rollover_on_disk [Field F] (fs : BundleFileSystem F) (path : String)
    (key : F) (cfg : SecretSharing) (rand : SplitRandomness F) :
    BundleFileSystem F × Option RolloverFailure :=
  match fs.bundles path with
  | none => (fs, some .missingBundle)
  | some b =>
    match rollover b key cfg rand with
    | .error _ => (fs, some .validationError)
    | .ok newBundle =>
      match writeBundleFile fs path newBundle with
      | .error _ => (fs, some .osError)
      | .ok fs' => (fs', none)

/-! ## Proof-side twin of `evalPoly`, and concrete example inputs -/

/-- The polynomial with the given coefficient list (constant term
first); proof-side twin of `evalPoly`. -/
noncomputable def toPoly [Field F] : List F → Polynomial F
  | [] => 0
  | c :: cs => Polynomial.C c + Polynomial.X * toPoly cs

instance : Fact (Nat.Prime 11) := ⟨by norm_num⟩

/-- The two-groups-required-with-one-minimum-share-each configuration of
`tests/test_recovery_bundle.py` (holder keys abstracted to small
numbers). -/
def exampleSecretSharing : SecretSharing :=
  { minimum_required_groups := 2
    groups :=
      [("legal", ⟨1, [("Ali", 1), ("Bob", 2)]⟩),
       ("sysadmins", ⟨1, [("Camille", 3), ("Dlique", 4)]⟩)] }

/-- Example split randomness over `ZMod 11`. -/
def exampleRandomness : SplitRandomness (ZMod 11) :=
  { identifier := 7
    groupTail := fun _ => 5
    memberTail := fun gi mi => (gi + mi + 3 : Nat) }

/-- An example recovery bundle over `ZMod 11`, sealed to the object key
`9`. -/
def exampleBundle : RecoveryBundleFile (ZMod 11) :=
  { version := 2
    removal_identifier := "TDN-2023-06-18-01"
    swhids := ["swh:1:cnt:d81cc0710eb6cf9efd5b920a8453e1e07157b6cd"]
    decryption_key_shares := generatedShares exampleSecretSharing
      exampleRandomness (9 : ZMod 11)
    objects :=
      [("contents/swh_1_cnt_d81cc0710eb6cf9efd5b920a8453e1e07157b6cd.age",
        age_encrypt (9 : ZMod 11) "42")] }

/-- A directory holding `exampleBundle` in which no file can be
created. -/
def readOnlyFs : BundleFileSystem (ZMod 11) :=
  { bundles := fun p =>
      if p = "rollover.swh-recovery-bundle" then some exampleBundle else none
    dir_writable := false }

/-! # Theorems -/

/-! ## Helper lemmas about the deletion phase -/

theorem grouper_flatten (l : List α) (n : Nat) : (grouper l n).flatten = l := by
  induction l, n using grouper.induct with
  | case1 l => simp [grouper]
  | case2 m => simp [grouper]
  | case3 m x xs ih => simp [grouper, ih]

theorem length_le_of_mem_grouper {l : List α} {n : Nat} {c : List α}
    (hc : c ∈ grouper l n) (hn : n ≠ 0) : c.length ≤ n := by
  induction l, n using grouper.induct with
  | case1 l => exact absurd rfl hn
  | case2 m => simp [grouper] at hc
  | case3 m x xs ih =>
    simp only [grouper, List.mem_cons] at hc
    rcases hc with rfl | hc
    · simp [List.length_take]
    · exact ih hc hn

theorem kindRank_of_mem_search {e : DeletionEvent} {name : String}
    {st : RemoverState} (h : e ∈ remove_from_search name st) :
    e.kindRank = 0 := by
  simp only [remove_from_search, List.mem_append, List.mem_map,
    List.mem_singleton] at h
  rcases h with ⟨url, _, rfl⟩ | rfl <;> rfl

theorem kindRank_of_mem_storage {e : DeletionEvent} {name : String}
    {st : RemoverState} (h : e ∈ remove_from_storage name st) :
    e.kindRank = 1 := by
  simp only [remove_from_storage, List.mem_map] at h
  rcases h with ⟨chunk, _, rfl⟩
  rfl

theorem kindRank_of_mem_journal {e : DeletionEvent} {name : String}
    {st : RemoverState} (h : e ∈ remove_from_journal name st) :
    e.kindRank = 2 := by
  simp only [remove_from_journal, List.mem_append, List.mem_map,
    List.mem_singleton] at h
  rcases h with ⟨kv, _, rfl⟩ | rfl <;> rfl

theorem kindRank_of_mem_objstorage {e : DeletionEvent} {name : String}
    {present : CompositeObjId → Bool} {st : RemoverState}
    (h : e ∈ remove_from_objstorage name present st) :
    e.kindRank = 3 := by
  simp only [remove_from_objstorage, List.mem_map] at h
  rcases h with ⟨objid, _, rfl⟩
  rfl

theorem pairwise_of_kindRank_eq {l : List DeletionEvent} {k : Nat}
    (h : ∀ e ∈ l, e.kindRank = k) :
    l.Pairwise (fun e f => e.kindRank ≤ f.kindRank) := by
  refine List.pairwise_of_forall_mem_list fun e he f hf => ?_
  rw [h e he, h f hf]

/-- C1: after the deletion phase, `Remover.remove` raises `RemoverError`
if and only if some SWHID in the set of removed SWHIDs whose object type
is not `origin` has, according to `storage.object_find_recent_references`,
a referrer lying outside the set of removed SWHIDs; origin SWHIDs are
excluded from the check. -/
theorem remove_raises_iff_new_external_reference
    (b : RemovalBackends) (st : RemoverState)
    (refs : ExtendedSWHID → List ExtendedSWHID) :
    (remove b st refs).2 = true ↔
      ∃ swhid ∈ st.swhids_to_remove,
        swhid.objectType ≠ ExtendedObjectType.origin ∧
        ∃ r ∈ refs swhid, r ∉ st.swhids_to_remove := by
  simp only [remove, have_new_references, List.any_eq_true]
  constructor
  · rintro ⟨swhid, hmem, hcond⟩
    by_cases horigin : swhid.objectType = ExtendedObjectType.origin
    · rw [if_pos horigin] at hcond
      cases hcond
    · rw [if_neg horigin, Bool.not_eq_true', List.all_eq_false] at hcond
      obtain ⟨r, hr, hrc⟩ := hcond
      exact ⟨swhid, hmem, horigin, r, hr, fun hin => hrc (List.elem_iff.mpr hin)⟩
  · rintro ⟨swhid, hmem, horigin, r, hr, hnotin⟩
    refine ⟨swhid, hmem, ?_⟩
    rw [if_neg horigin, Bool.not_eq_true', List.all_eq_false]
    refine ⟨r, hr, ?_⟩
    rcases h : st.swhids_to_remove.contains r with _ | _
    · simp
    · exact absurd (List.elem_iff.mp h) hnotin

/-- C5: within `Remover.remove`, the deletion phase processes backends in
the fixed order search, then storage, then journal, then object storage:
along the whole trace the backend-kind rank is monotone, so no backend of
a later kind is touched before every backend of an earlier kind. -/
theorem remove_backend_order
    (b : RemovalBackends) (st : RemoverState)
    (refs : ExtendedSWHID → List ExtendedSWHID) :
    (remove b st refs).1.Pairwise (fun e f => e.kindRank ≤ f.kindRank) := by
  have hs : ∀ e ∈ b.removal_searches.flatMap fun n => remove_from_search n st,
      DeletionEvent.kindRank e = 0 := by
    intro e he
    obtain ⟨n, _, he⟩ := List.mem_flatMap.mp he
    exact kindRank_of_mem_search he
  have ht : ∀ e ∈ b.removal_storages.flatMap fun n => remove_from_storage n st,
      DeletionEvent.kindRank e = 1 := by
    intro e he
    obtain ⟨n, _, he⟩ := List.mem_flatMap.mp he
    exact kindRank_of_mem_storage he
  have hj : ∀ e ∈ b.removal_journals.flatMap fun n => remove_from_journal n st,
      DeletionEvent.kindRank e = 2 := by
    intro e he
    obtain ⟨n, _, he⟩ := List.mem_flatMap.mp he
    exact kindRank_of_mem_journal he
  have ho : ∀ e ∈ b.removal_objstorages.flatMap fun no =>
      remove_from_objstorage no.1 no.2 st, DeletionEvent.kindRank e = 3 := by
    intro e he
    obtain ⟨no, _, he⟩ := List.mem_flatMap.mp he
    exact kindRank_of_mem_objstorage he
  simp only [remove]
  rw [List.pairwise_append]
  refine ⟨?_, pairwise_of_kindRank_eq ho, ?_⟩
  · rw [List.pairwise_append]
    refine ⟨?_, pairwise_of_kindRank_eq hj, ?_⟩
    · rw [List.pairwise_append]
      refine ⟨pairwise_of_kindRank_eq hs, pairwise_of_kindRank_eq ht, ?_⟩
      intro e he f hf
      rw [hs e he, ht f hf]
      omega
    · intro e he f hf
      rw [hj f hf]
      rcases List.mem_append.mp he with he | he
      · rw [hs e he]; omega
      · rw [ht e he]; omega
  · intro e he f hf
    rw [ho f hf]
    rcases List.mem_append.mp he with he | he
    · rcases List.mem_append.mp he with he | he
      · rw [hs e he]; omega
      · rw [ht e he]; omega
    · rw [hj e he]; omega

/-- C7: `Remover.remove_from_storage` partitions the registered SWHIDs
into consecutive chunks of at most 200 and calls `object_delete` once per
chunk, so no single `object_delete` call receives more than 200 SWHIDs. -/
theorem remove_from_storage_chunking (name : String) (st : RemoverState) :
    (object_delete_calls st.swhids_to_remove).flatten = st.swhids_to_remove
    ∧ (∀ c ∈ object_delete_calls st.swhids_to_remove,
        c.length ≤ STORAGE_OBJECT_DELETE_CHUNK_SIZE)
    ∧ remove_from_storage name st
      = (object_delete_calls st.swhids_to_remove).map fun chunk =>
          DeletionEvent.storageObjectDelete name chunk := by
  refine ⟨grouper_flatten _ _, fun c hc => ?_, rfl⟩
  exact length_le_of_mem_grouper hc (by decide)

/-- C8: in `Remover.remove_from_objstorage`, a `NotFound` error raised by
the object store is caught: the id is logged and not counted as a
deletion, every remaining registered id is still processed (the trace
deletes each registered id exactly once, in order), and the loop is a
total function — the error never propagates. -/
theorem remove_from_objstorage_not_found_handling
    (name : String) (present : CompositeObjId → Bool) (st : RemoverState) :
    remove_from_objstorage_loop present st.objids_to_remove
      = ((st.objids_to_remove.filter fun o => present o).length,
         st.objids_to_remove.filter fun o => !present o)
    ∧ remove_from_objstorage name present st
      = st.objids_to_remove.map fun o =>
          DeletionEvent.objstorageDelete name o (present o) := by
  refine ⟨?_, rfl⟩
  induction st.objids_to_remove with
  | nil => rfl
  | cons objid rest ih =>
    by_cases h : present objid
    · simp [remove_from_objstorage_loop, objstorage_delete, h, ih]
    · simp [remove_from_objstorage_loop, objstorage_delete, h, ih]

/-! ## Helper lemmas about `register_object` -/

theorem register_object_fields (st : RemoverState) (o : ArchiveObject) :
    (register_object st o).swhids_to_remove
      = st.swhids_to_remove ++ (match o.swhidAttr with
        | some (some s) => [s]
        | _ => [])
    ∧ (register_object st o).objids_to_remove
      = st.objids_to_remove ++ (match o.swhidAttr with
        | some (some s) =>
          if s.objectType = ExtendedObjectType.content then [o.objid] else []
        | _ => [])
    ∧ (register_object st o).origin_urls_to_remove
      = st.origin_urls_to_remove
        ++ (if o.kind = BundleObjectKind.origin then [o.url] else [])
    ∧ (register_object st o).journal_objects_to_remove
      = journalAppend st.journal_objects_to_remove o.kind.name o.uniqueKey := by
  unfold register_object
  rcases h : o.swhidAttr with _ | ⟨_ | s⟩ <;> dsimp only <;>
    split <;> simp_all <;> split <;> simp_all

theorem mem_flatten_journalAppend {l : List (String × List JournalKey)}
    {k : String} {v a : JournalKey} :
    a ∈ ((journalAppend l k v).map Prod.snd).flatten ↔
      a ∈ (l.map Prod.snd).flatten ∨ a = v := by
  induction l with
  | nil => simp [journalAppend]
  | cons kv rest ih =>
    rcases kv with ⟨k', vs⟩
    by_cases h : k' = k
    · rw [show journalAppend ((k', vs) :: rest) k v = (k', vs ++ [v]) :: rest
        from by simp [journalAppend, h]]
      simp only [List.map_cons, List.flatten_cons, List.mem_append,
        List.mem_singleton]
      tauto
    · rw [show journalAppend ((k', vs) :: rest) k v
          = (k', vs) :: journalAppend rest k v
        from by simp [journalAppend, h]]
      simp only [List.map_cons, List.flatten_cons, List.mem_append, ih]
      tauto

theorem mem_journalKeys_register_object {st : RemoverState}
    {o : ArchiveObject} {a : JournalKey} :
    a ∈ (register_object st o).journalKeys ↔
      a ∈ st.journalKeys ∨ a = o.uniqueKey := by
  unfold RemoverState.journalKeys
  rw [(register_object_fields st o).2.2.2]
  exact mem_flatten_journalAppend

theorem covers_register_object_mono {st : RemoverState} {o : ArchiveObject}
    (o' : ArchiveObject) (h : st.covers o) :
    (register_object st o').covers o := by
  obtain ⟨h₁, h₂, h₃⟩ := h
  obtain ⟨f₁, f₂, f₃, -⟩ := register_object_fields st o'
  refine ⟨?_, mem_journalKeys_register_object.mpr (Or.inl h₂), fun hk => by
    rw [f₃]; exact List.mem_append_left _ (h₃ hk)⟩
  rcases hs : o.swhidAttr with _ | ⟨_ | s⟩
  · trivial
  · trivial
  · rw [hs] at h₁
    obtain ⟨hmem, hobj⟩ := h₁
    exact ⟨by rw [f₁]; exact List.mem_append_left _ hmem,
      fun hc => by rw [f₂]; exact List.mem_append_left _ (hobj hc)⟩

theorem covers_register_object_self (st : RemoverState) (o : ArchiveObject) :
    (register_object st o).covers o := by
  obtain ⟨f₁, f₂, f₃, -⟩ := register_object_fields st o
  refine ⟨?_, mem_journalKeys_register_object.mpr (Or.inr rfl), fun hk => by
    rw [f₃, if_pos hk]; simp⟩
  rcases hs : o.swhidAttr with _ | ⟨_ | s⟩
  · trivial
  · trivial
  · rw [hs] at f₁ f₂
    refine ⟨by rw [f₁]; simp, fun hc => ?_⟩
    rw [f₂]
    simp [hc]

theorem covers_foldl_register_object {l : List ArchiveObject}
    {st : RemoverState} {o : ArchiveObject} (h : st.covers o) :
    (l.foldl register_object st).covers o := by
  induction l generalizing st with
  | nil => exact h
  | cons o' rest ih => exact ih (covers_register_object_mono o' h)

theorem covers_foldl_of_mem {l : List ArchiveObject} {st : RemoverState}
    {o : ArchiveObject} (h : o ∈ l) :
    (l.foldl register_object st).covers o := by
  induction l generalizing st with
  | nil => cases h
  | cons o' rest ih =>
    rcases List.mem_cons.mp h with rfl | h
    · rw [List.foldl_cons]
      exact covers_foldl_register_object (covers_register_object_self st o)
    · exact ih h

/-- C4 is false as stated: a version-2 bundle holding an `ExtID` object
stores that object (`bundle.extids()` would yield it), yet
`register_objects_from_bundle` re-populates no deletion register for it —
on this bundle it registers nothing at all, because the iteration chains
only contents, skipped contents, directories, revisions, releases,
snapshots, origins, visits and visit statuses. -/
theorem register_objects_from_bundle_misses_extid :
    ∃ o ∈ extidOnlyBundle.allObjects,
      ¬ (register_objects_from_bundle extidOnlyBundle).covers o := by
  refine ⟨⟨BundleObjectKind.extid,
    some (some ⟨ExtendedObjectType.extid, 0xfa73⟩), ⟨0xfa73⟩, "", ⟨0⟩⟩,
    by decide, fun h => ?_⟩
  have hempty : register_objects_from_bundle extidOnlyBundle
      = ⟨[], [], [], []⟩ := rfl
  rw [hempty] at h
  obtain ⟨-, h₂, -⟩ := h
  simp [RemoverState.journalKeys] at h₂

/-- C4 (amended): `Remover.register_objects_from_bundle`, given a bundle
path and its decryption key, iterates the bundle's contents, skipped
contents, directories, revisions, releases, snapshots, and each origin
with its visits and visit statuses, and re-populates the deletion
registers (SWHIDs to remove, objstorage composite ids, journal keys,
search origin URLs) for all of those objects — but not for the `ExtID`
and `RawExtrinsicMetadata` objects of version-2 bundles, which the
iteration skips. -/
theorem register_objects_from_bundle_covers_iterated
    (b : BundleReader) (o : ArchiveObject) (h : o ∈ b.iterated) :
    (register_objects_from_bundle b).covers o :=
  covers_foldl_of_mem h

/-- Witness for C4 (amended) at a one-origin, one-content bundle. -/
theorem register_objects_from_bundle_covers_iterated_witness :
    (⟨BundleObjectKind.content,
        some (some ⟨ExtendedObjectType.content, 3⟩), ⟨3⟩, "", ⟨3⟩⟩ :
        ArchiveObject) ∈
      (⟨1, [⟨BundleObjectKind.content,
              some (some ⟨ExtendedObjectType.content, 3⟩), ⟨3⟩, "", ⟨3⟩⟩],
        [], [], [], [], [],
        [⟨BundleObjectKind.origin, some (some ⟨ExtendedObjectType.origin, 5⟩),
          ⟨5⟩, "https://example.org", ⟨0⟩⟩],
        [], [], [], []⟩ : BundleReader).iterated
    ∧ (register_objects_from_bundle
        ⟨1, [⟨BundleObjectKind.content,
                some (some ⟨ExtendedObjectType.content, 3⟩), ⟨3⟩, "", ⟨3⟩⟩],
          [], [], [], [], [],
          [⟨BundleObjectKind.origin, some (some ⟨ExtendedObjectType.origin, 5⟩),
            ⟨5⟩, "https://example.org", ⟨0⟩⟩],
          [], [], [], []⟩).covers
        ⟨BundleObjectKind.content,
          some (some ⟨ExtendedObjectType.content, 3⟩), ⟨3⟩, "", ⟨3⟩⟩ :=
  ⟨by decide, register_objects_from_bundle_covers_iterated _ _ (by decide)⟩

/-! ## Helper lemmas about the subgraph -/

theorem add_vertex_es (g : Subgraph) (name : String)
    (swhid : Option ExtendedSWHID) :
    ((g.add_vertex name swhid).1).es = g.es := by
  unfold Subgraph.add_vertex
  cases g.vs.findIdx? (fun v => v.name = name) <;> rfl

theorem add_edge_es {g g' : Subgraph} {s t : Nat} {d : Bool}
    (h : g.add_edge s t d = .ok g') :
    g'.es = g.es ∨ g'.es = g.es ++ [(s, t)] := by
  unfold Subgraph.add_edge at h
  split_ifs at h <;> cases h <;>
    first
    | exact Or.inl rfl
    | exact Or.inr rfl

theorem runOps_no_self_loop_aux {ops : List SubgraphOp} {g₀ g : Subgraph}
    (hops : ∀ s t d, SubgraphOp.addEdge s t d ∈ ops → s ≠ t)
    (h₀ : ∀ e ∈ g₀.es, e.1 ≠ e.2)
    (hrun : Subgraph.runOps g₀ ops = .ok g) :
    ∀ e ∈ g.es, e.1 ≠ e.2 := by
  induction ops generalizing g₀ with
  | nil =>
    cases hrun
    exact h₀
  | cons op ops ih =>
    rcases happ : g₀.applyOp op with err | g'
    · rw [Subgraph.runOps, happ] at hrun
      cases hrun
    · rw [Subgraph.runOps, happ] at hrun
      refine ih (fun s t d hm => hops s t d (List.mem_cons_of_mem _ hm)) ?_ hrun
      rcases op with ⟨name, swhid⟩ | ⟨s, t, d⟩
      · rw [Subgraph.applyOp] at happ
        cases happ
        rw [add_vertex_es]
        exact h₀
      · rw [Subgraph.applyOp] at happ
        rcases add_edge_es happ with hes | hes <;> rw [hes]
        · exact h₀
        · intro e he
          rcases List.mem_append.mp he with he | he
          · exact h₀ e he
          · rw [List.mem_singleton] at he
            subst he
            exact hops s t d (List.mem_cons_self _ _)

/-- C9 is false as stated: the operation sequence of
`test_add_edge_fails_on_duplicate` (`tests/test_subgraph.py`, lines
130–137) — two idempotent `add_vertex` calls with the same name followed
by `add_edge` between the two returned (identical) vertices — succeeds
and yields a graph whose single edge has its source equal to its
target. -/
theorem subgraph_self_loop_counterexample :
    ∃ g, Subgraph.runOps Subgraph.empty selfLoopOps = .ok g
      ∧ ∃ e ∈ g.es, e.1 = e.2 :=
  ⟨⟨[⟨"a vertex", none⟩], [(0, 0)]⟩, rfl, (0, 0), by decide, rfl⟩

/-- C9 (amended): the subgraph operations never create a self-loop
provided no `add_edge` call is made with both endpoints equal — for every
operation sequence whose `add_edge` operations all have distinct
endpoints, no edge of the resulting graph has its source equal to its
target.  (`add_edge` itself performs no self-loop check: calling it with
`src = tgt` — which `add_vertex` idempotency makes easy — records a
self-loop.) -/
theorem runOps_no_self_loop
    (ops : List SubgraphOp) (g : Subgraph)
    (hops : ∀ s t d, SubgraphOp.addEdge s t d ∈ ops → s ≠ t)
    (hrun : Subgraph.runOps Subgraph.empty ops = .ok g) :
    ∀ e ∈ g.es, e.1 ≠ e.2 :=
  runOps_no_self_loop_aux hops (by intro e he; cases he) hrun

/-- Witness for C9 (amended): a two-vertex sequence whose single
`add_edge` has distinct endpoints. -/
theorem runOps_no_self_loop_witness :
    (∀ s t d, SubgraphOp.addEdge s t d ∈
        [SubgraphOp.addVertex "a" none, SubgraphOp.addVertex "b" none,
         SubgraphOp.addEdge 0 1 false] → s ≠ t)
    ∧ ∀ e ∈ (⟨[⟨"a", none⟩, ⟨"b", none⟩], [(0, 1)]⟩ : Subgraph).es,
        e.1 ≠ e.2 := by
  have hops : ∀ s t d, SubgraphOp.addEdge s t d ∈
      [SubgraphOp.addVertex "a" none, SubgraphOp.addVertex "b" none,
       SubgraphOp.addEdge 0 1 false] → s ≠ t := by
    intro s t d h
    simp only [List.mem_cons, List.not_mem_nil, or_false] at h
    rcases h with h | h | h
    · cases h
    · cases h
    · cases h; decide
  exact ⟨hops, runOps_no_self_loop _ _ hops rfl⟩

/-! ## Helper lemmas about `select_ordered` -/

theorem rank_eq_of_filter_key {v : SubgraphVertex} {t : ExtendedObjectType}
    (h : v.swhid.map (·.objectType) = some t) : v.rank = t.rank := by
  rcases hv : v.swhid with _ | s
  · rw [hv] at h; cases h
  · rw [hv] at h
    simp at h
    rw [SubgraphVertex.rank, hv]
    exact congrArg ExtendedObjectType.rank h

theorem flatMap_filter_perm (l : List SubgraphVertex) :
    ∀ ks : List ExtendedObjectType, ks.Nodup →
      (ks.flatMap fun t =>
        l.filter fun v => v.swhid.map (·.objectType) = some t).Perm
        (l.filter fun v =>
          ks.any fun t => v.swhid.map (·.objectType) = some t) := by
  intro ks
  induction ks with
  | nil =>
    intro _
    simp
  | cons k ks ih =>
    intro hnd
    rw [List.nodup_cons] at hnd
    obtain ⟨hk, hnd⟩ := hnd
    rw [List.flatMap_cons]
    have hdisj : ∀ v : SubgraphVertex,
        (v.swhid.map (·.objectType) = some k) →
        ¬ (ks.any fun t => v.swhid.map (·.objectType) = some t) = true := by
      intro v hv hany
      rw [List.any_eq_true] at hany
      obtain ⟨t, ht, hvt⟩ := hany
      rw [hv] at hvt
      simp only [decide_eq_true_eq, Option.some_inj] at hvt
      exact hk (hvt ▸ ht)
    have hsplit :
        ((l.filter fun v => v.swhid.map (·.objectType) = some k)
          ++ l.filter fun v =>
              ks.any fun t => v.swhid.map (·.objectType) = some t).Perm
          (l.filter fun v =>
            (k :: ks).any fun t => v.swhid.map (·.objectType) = some t) := by
      have hp := List.filter_append_perm
        (fun v => decide (v.swhid.map (·.objectType) = some k))
        (l.filter fun v =>
          (k :: ks).any fun t => v.swhid.map (·.objectType) = some t)
      rw [List.filter_filter, List.filter_filter] at hp
      have e₁ : (l.filter fun v =>
          decide (v.swhid.map (·.objectType) = some k)
            && (k :: ks).any fun t => v.swhid.map (·.objectType) = some t)
          = l.filter fun v => v.swhid.map (·.objectType) = some k := by
        refine List.filter_congr fun v _ => ?_
        by_cases hv : v.swhid.map (·.objectType) = some k
        · simp [hv]
        · simp [hv]
      have e₂ : (l.filter fun v =>
          !decide (v.swhid.map (·.objectType) = some k)
            && (k :: ks).any fun t => v.swhid.map (·.objectType) = some t)
          = l.filter fun v =>
              ks.any fun t => v.swhid.map (·.objectType) = some t := by
        refine List.filter_congr fun v _ => ?_
        by_cases hv : v.swhid.map (·.objectType) = some k
        · have hfalse := hdisj v hv
          rw [Bool.not_eq_true] at hfalse
          rw [hv] at hfalse
          simp [List.any_cons, hv, hfalse]
          exact fun x hx hkx => hk (by rw [hkx]; exact hx)
        · simp [List.any_cons, hv]
          intro x hx hxk
          exact absurd
            (show Option.map (fun s => s.objectType) v.swhid = some k from by
              rw [hx]; simp [hxk]) hv
      rw [e₁, e₂] at hp
      exact hp
    exact (List.Perm.append_left _ (ih hnd)).trans hsplit

theorem flatMap_filter_pairwise (l : List SubgraphVertex) :
    ∀ ks : List ExtendedObjectType,
      ks.Pairwise (fun a b => a.rank ≤ b.rank) →
      (ks.flatMap fun t =>
        l.filter fun v => v.swhid.map (·.objectType) = some t).Pairwise
        (fun v w => v.rank ≤ w.rank) := by
  intro ks
  induction ks with
  | nil =>
    intro _
    simp
  | cons k ks ih =>
    intro hsort
    rw [List.pairwise_cons] at hsort
    obtain ⟨hle, hsort⟩ := hsort
    rw [List.flatMap_cons, List.pairwise_append]
    refine ⟨?_, ih hsort, ?_⟩
    · refine List.pairwise_of_forall_mem_list fun v hv w hw => ?_
      rw [rank_eq_of_filter_key (of_decide_eq_true (List.mem_filter.mp hv).2),
        rank_eq_of_filter_key (of_decide_eq_true (List.mem_filter.mp hw).2)]
    · intro v hv w hw
      obtain ⟨t, ht, hw⟩ := List.mem_flatMap.mp hw
      rw [rank_eq_of_filter_key (of_decide_eq_true (List.mem_filter.mp hv).2),
        rank_eq_of_filter_key (of_decide_eq_true (List.mem_filter.mp hw).2)]
      exact hle t ht

/-! ## Helper lemmas: Lagrange interpolation at zero -/

theorem lagrangeZeroFn_eq_eval [Field F] (n : Nat) (x r : Fin n → F) :
    lagrangeZeroFn n x r
      = Polynomial.eval 0 (Lagrange.interpolate Finset.univ x r) := by
  rw [Lagrange.interpolate_apply, Polynomial.eval_finset_sum]
  refine Finset.sum_congr rfl fun i _ => ?_
  rw [Polynomial.eval_mul, Polynomial.eval_C, Lagrange.basis,
    Polynomial.eval_prod]
  refine congrArg (fun z => r i * z) (Finset.prod_congr rfl fun j _ => ?_)
  rw [Lagrange.basisDivisor, Polynomial.eval_mul, Polynomial.eval_C,
    Polynomial.eval_sub, Polynomial.eval_X, Polynomial.eval_C]

theorem lagrangeZeroFn_recovers [Field F] {n : Nat} {x : Fin n → F}
    (hx : Function.Injective x) (f : Polynomial F)
    (hdeg : f.degree < n) :
    lagrangeZeroFn n x (fun i => f.eval (x i)) = f.eval 0 := by
  rw [lagrangeZeroFn_eq_eval]
  rw [← Lagrange.eq_interpolate (Set.injOn_of_injective hx)
    (by simpa using hdeg)]

theorem evalPoly_toPoly [Field F] (coeffs : List F) (x : F) :
    (toPoly coeffs).eval x = evalPoly coeffs x := by
  induction coeffs with
  | nil => simp [toPoly, evalPoly]
  | cons c cs ih => simp [toPoly, evalPoly, ih]

theorem toPoly_degree_lt [Field F] (coeffs : List F) :
    (toPoly coeffs).degree < (coeffs.length : WithBot Nat) := by
  induction coeffs with
  | nil =>
    rw [toPoly]
    simp
  | cons c cs ih =>
    rw [toPoly, List.length_cons]
    refine lt_of_le_of_lt (Polynomial.degree_add_le _ _) (max_lt ?_ ?_)
    · refine lt_of_le_of_lt Polynomial.degree_C_le ?_
      exact_mod_cast Nat.succ_pos cs.length
    · rcases eq_or_ne (toPoly cs) 0 with h0 | h0
      · rw [h0, mul_zero, Polynomial.degree_zero]
        exact WithBot.bot_lt_coe _
      · rw [Polynomial.degree_mul, Polynomial.degree_X,
          Polynomial.degree_eq_natDegree h0]
        rw [Polynomial.degree_eq_natDegree h0] at ih
        have hm : (toPoly cs).natDegree < cs.length := by exact_mod_cast ih
        have hsum : (1 + (toPoly cs).natDegree : Nat) < cs.length + 1 := by
          omega
        exact_mod_cast hsum

theorem lagrangeZeroList_recovers [Field F] (coeffs : List F)
    (pts : List (F × F))
    (hlen : coeffs.length ≤ pts.length)
    (hinj : ∀ i j : Fin pts.length, (pts.get i).1 = (pts.get j).1 → i = j)
    (hval : ∀ p ∈ pts, p.2 = evalPoly coeffs p.1) :
    lagrangeZeroList pts = coeffs.headD 0 := by
  rw [lagrangeZeroList]
  have hy : (fun i : Fin pts.length => (pts.get i).2)
      = fun i => (toPoly coeffs).eval ((pts.get i).1) := by
    funext i
    rw [evalPoly_toPoly]
    exact hval _ (pts.get_mem _ _)
  rw [hy, lagrangeZeroFn_recovers (fun i j h => hinj i j h) (toPoly coeffs)
    (lt_of_lt_of_le (toPoly_degree_lt coeffs) (by exact_mod_cast hlen))]
  rw [evalPoly_toPoly]
  cases coeffs with
  | nil => rw [evalPoly, List.headD]
  | cons c cs =>
    rw [evalPoly, List.headD]
    ring

/-! ## Helper lemmas: deduplication and list bookkeeping -/

theorem mem_of_mem_dedupeOn [DecidableEq β] {f : α → β} :
    ∀ {l : List α} {x : α}, x ∈ dedupeOn f l → x ∈ l := by
  intro l
  induction l using dedupeOn.induct (f := f) with
  | case1 =>
    intro x hx
    rw [dedupeOn] at hx
    cases hx
  | case2 a as ih =>
    intro x hx
    rw [dedupeOn] at hx
    rcases List.mem_cons.mp hx with rfl | hx
    · exact List.mem_cons_self _ _
    · exact List.mem_cons_of_mem _ (List.mem_of_mem_filter (ih hx))

theorem nodup_map_dedupeOn [DecidableEq β] {f : α → β} :
    ∀ {l : List α}, ((dedupeOn f l).map f).Nodup := by
  intro l
  induction l using dedupeOn.induct (f := f) with
  | case1 => simp [dedupeOn]
  | case2 a as ih =>
    rw [dedupeOn, List.map_cons, List.nodup_cons]
    refine ⟨fun hmem => ?_, ih⟩
    obtain ⟨y, hy, hfy⟩ := List.mem_map.mp hmem
    have hy' := List.mem_filter.mp (mem_of_mem_dedupeOn hy)
    rw [← hfy] at hy'
    simp at hy'

theorem mem_map_dedupeOn [DecidableEq β] {f : α → β} :
    ∀ {l : List α} {b : β}, b ∈ (dedupeOn f l).map f ↔ b ∈ l.map f := by
  intro l
  induction l using dedupeOn.induct (f := f) with
  | case1 => intro b; rw [dedupeOn]
  | case2 a as ih =>
    intro b
    rw [dedupeOn, List.map_cons, List.map_cons, List.mem_cons, List.mem_cons,
      ih]
    constructor
    · rintro (rfl | hb)
      · exact Or.inl rfl
      · obtain ⟨y, hy, rfl⟩ := List.mem_map.mp hb
        exact Or.inr (List.mem_map_of_mem f (List.mem_of_mem_filter hy))
    · rintro (rfl | hb)
      · exact Or.inl rfl
      · obtain ⟨y, hy, rfl⟩ := List.mem_map.mp hb
        by_cases hfy : f y = f a
        · exact Or.inl hfy
        · exact Or.inr (List.mem_map_of_mem f
            (List.mem_filter.mpr ⟨hy, by simpa using hfy⟩))

theorem filterMap_eq_map_of_forall_some {f : α → Option β} {g : α → β} :
    ∀ {l : List α}, (∀ a ∈ l, f a = some (g a)) → l.filterMap f = l.map g := by
  intro l
  induction l with
  | nil => intro _; rfl
  | cons a as ih =>
    intro h
    rw [List.filterMap_cons, h a (List.mem_cons_self _ _), List.map_cons,
      ih fun b hb => h b (List.mem_cons_of_mem _ hb)]

theorem length_eq_of_nodup_of_mem_iff {l₁ l₂ : List α}
    (h₁ : l₁.Nodup) (h₂ : l₂.Nodup) (h : ∀ a, a ∈ l₁ ↔ a ∈ l₂) :
    l₁.length = l₂.length := by
  classical
  have : l₁.toFinset = l₂.toFinset := by
    ext a
    simp only [List.mem_toFinset]
    exact h a
  rw [← List.toFinset_card_of_nodup h₁, ← List.toFinset_card_of_nodup h₂,
    this]

/-! ## Helper lemmas: decryption and the generated shares -/

theorem findSome_age_decrypt (available : List (String × Nat))
    (ct : Sealed Nat π) :
    (available.findSome? fun k => age_decrypt k.2 ct)
      = if (available.map Prod.snd).contains ct.recipient
        then some ct.payload else none := by
  induction available with
  | nil => rfl
  | cons k ks ih =>
    by_cases h : ct.recipient = k.2
    · have hstep : (List.findSome? (fun k => age_decrypt k.2 ct) (k :: ks))
          = some ct.payload := by
        rw [List.findSome?_cons]
        simp [age_decrypt, h]
      rw [hstep]
      simp [List.contains_cons, h]
    · have hstep : (List.findSome? (fun k => age_decrypt k.2 ct) (k :: ks))
          = List.findSome? (fun k => age_decrypt k.2 ct) ks := by
        rw [List.findSome?_cons]
        simp [age_decrypt, h]
      rw [hstep, ih]
      have hb : (k.2 :: List.map Prod.snd ks).contains ct.recipient
          = (List.map Prod.snd ks).contains ct.recipient := by
        show (ct.recipient == k.2 || (List.map Prod.snd ks).contains ct.recipient)
          = (List.map Prod.snd ks).contains ct.recipient
        rw [beq_eq_false_iff_ne.mpr h]
        simp
      rw [List.map_cons, hb]

theorem mem_generatedShares_iff [Field F] {cfg : SecretSharing}
    {rand : SplitRandomness F} {sk : F} {s : String × Sealed Nat (Mnemonic F)} :
    s ∈ generatedShares cfg rand sk ↔
      ∃ gi, gi < cfg.groups.length ∧
        ∃ mi, mi < (cfg.groupAt gi).recipient_keys.length ∧
          s = (slotShareId cfg gi mi,
               age_encrypt (slotPublicKey cfg gi mi)
                 (mnemonicFor cfg rand sk gi mi)) := by
  simp [generatedShares, List.mem_flatMap, List.mem_map, List.mem_range,
    eq_comm]

theorem mnemonicFor_injective_slot [Field F] {cfg : SecretSharing}
    {rand : SplitRandomness F} {sk : F} {gi mi gj mj : Nat}
    (h : mnemonicFor cfg rand sk gi mi = mnemonicFor cfg rand sk gj mj) :
    gi = gj ∧ mi = mj := by
  have h₁ := congrArg Mnemonic.group_index h
  have h₂ := congrArg Mnemonic.member_index h
  exact ⟨h₁, h₂⟩

/-! ## Helper lemmas: configuration arithmetic -/

theorem groupAt_mem {cfg : SecretSharing} {gi : Nat}
    (h : gi < cfg.groups.length) :
    ∃ p ∈ cfg.groups, p.2 = cfg.groupAt gi := by
  refine ⟨cfg.groups[gi], List.getElem_mem h, ?_⟩
  rw [SecretSharing.groupAt, List.getElem?_eq_getElem h]
  rfl

theorem minimum_required_shares_pos {cfg : SecretSharing}
    (hvalid : cfg.valid) {gi : Nat} (h : gi < cfg.groups.length) :
    1 ≤ (cfg.groupAt gi).minimum_required_shares := by
  obtain ⟨p, hp, hpe⟩ := groupAt_mem h
  rw [← hpe]
  exact hvalid.2.1 p hp

theorem groups_length_le_indexBound (cfg : SecretSharing) :
    cfg.groups.length ≤ cfg.indexBound :=
  le_max_left _ _

theorem le_foldr_max {l : List Nat} {x : Nat} (h : x ∈ l) :
    x ≤ l.foldr max 0 := by
  induction l with
  | nil => cases h
  | cons n ns ih =>
    rw [List.foldr_cons]
    rcases List.mem_cons.mp h with rfl | h
    · exact le_max_left _ _
    · exact le_trans (ih h) (le_max_right _ _)

theorem members_length_le_indexBound {cfg : SecretSharing} {gi : Nat}
    (h : gi < cfg.groups.length) :
    (cfg.groupAt gi).recipient_keys.length ≤ cfg.indexBound := by
  obtain ⟨p, hp, hpe⟩ := groupAt_mem h
  refine le_trans ?_ (le_max_right _ _)
  rw [← hpe]
  exact le_foldr_max (List.mem_map_of_mem _ hp)

theorem groupPolyCoeffs_length [Field F] {cfg : SecretSharing}
    (hvalid : cfg.valid) (rand : SplitRandomness F) (sk : F) :
    (groupPolyCoeffs cfg rand sk).length = cfg.minimum_required_groups := by
  have := hvalid.1
  rw [groupPolyCoeffs, List.length_cons, List.length_map, List.length_range]
  omega

theorem memberPolyCoeffs_length [Field F] {cfg : SecretSharing}
    (hvalid : cfg.valid) (rand : SplitRandomness F) (sk : F) {gi : Nat}
    (h : gi < cfg.groups.length) :
    (memberPolyCoeffs cfg rand sk gi).length
      = (cfg.groupAt gi).minimum_required_shares := by
  have := minimum_required_shares_pos hvalid h
  rw [memberPolyCoeffs, List.length_cons, List.length_map, List.length_range]
  omega

theorem lagrangeZeroList_recovers_of_nodup [Field F] (coeffs : List F)
    (pts : List (F × F))
    (hlen : coeffs.length ≤ pts.length)
    (hnodup : (pts.map Prod.fst).Nodup)
    (hval : ∀ p ∈ pts, p.2 = evalPoly coeffs p.1) :
    lagrangeZeroList pts = coeffs.headD 0 := by
  refine lagrangeZeroList_recovers coeffs pts hlen ?_ hval
  intro i j hij
  have hinj := List.nodup_iff_injective_get.mp hnodup
  have hme : pts.length = (pts.map Prod.fst).length := (List.length_map _ _).symm
  have h1 : (pts.map Prod.fst).get (Fin.cast hme i) = (pts.get i).1 := by
    rw [List.get_map]; rfl
  have h2 : (pts.map Prod.fst).get (Fin.cast hme j) = (pts.get j).1 := by
    rw [List.get_map]; rfl
  have hcast := hinj (show (pts.map Prod.fst).get (Fin.cast hme i)
      = (pts.map Prod.fst).get (Fin.cast hme j) from by rw [h1, h2, hij])
  have hv' := congrArg Fin.val hcast
  exact Fin.ext (show i.val = j.val from hv')

/-! ## Helper lemmas: the mnemonic pool assembled by recovery

The next lemmas are stated for an arbitrary mnemonic pool `P` satisfying
the three properties recovery establishes for it: every element is a
genuine mnemonic of the split, the share slots are distinct, and a slot's
mnemonic belongs to the pool exactly when the coalition covers that
slot. -/

theorem pool_filter_group_length [Field F] [DecidableEq F]
    {cfg : SecretSharing} {rand : SplitRandomness F} {sk : F}
    {availableKeys : List Nat} {known : List (Mnemonic F)}
    {P : List (Mnemonic F)}
    (hgen : ∀ m ∈ P, genuineMnemonic cfg rand sk m)
    (hnd : (P.map Mnemonic.slot).Nodup)
    (hmem : ∀ gi mi, gi < cfg.groups.length →
      mi < (cfg.groupAt gi).recipient_keys.length →
      (mnemonicFor cfg rand sk gi mi ∈ P ↔
        coveredSlotB cfg availableKeys known gi mi = true))
    {gi : Nat} (hgi : gi < cfg.groups.length) :
    (P.filter fun m => m.group_index = gi).length
      = contributedCount cfg availableKeys known gi := by
  set fl := P.filter fun m => m.group_index = gi with hfl
  have hflP : ∀ m ∈ fl, m ∈ P ∧ m.group_index = gi := by
    intro m hm
    obtain ⟨h1, h2⟩ := List.mem_filter.mp hm
    exact ⟨h1, of_decide_eq_true h2⟩
  have hslotnd : (fl.map Mnemonic.slot).Nodup :=
    ((List.filter_sublist P).map Mnemonic.slot).nodup hnd
  have hmind : (fl.map Mnemonic.member_index).Nodup := by
    rw [List.Nodup, List.pairwise_map] at hslotnd ⊢
    refine hslotnd.imp_of_mem ?_
    intro a b ha hb hab hmi
    exact hab (by
      rw [Mnemonic.slot, Mnemonic.slot, (hflP a ha).2, (hflP b hb).2, hmi])
  have hmem' : ∀ mi : Nat, mi ∈ fl.map Mnemonic.member_index ↔
      (mi < (cfg.groupAt gi).recipient_keys.length ∧
        coveredSlotB cfg availableKeys known gi mi = true) := by
    intro mi
    constructor
    · intro hmi
      obtain ⟨m, hm, rfl⟩ := List.mem_map.mp hmi
      obtain ⟨hmP, hmg⟩ := hflP m hm
      obtain ⟨gi', hgi', mi', hmi', rfl⟩ := hgen m hmP
      have hg : gi' = gi := hmg
      subst hg
      refine ⟨hmi', ?_⟩
      exact (hmem gi' mi' hgi' hmi').mp hmP
    · rintro ⟨hmi, hcov⟩
      have hp := (hmem gi mi hgi hmi).mpr hcov
      refine List.mem_map.mpr ⟨mnemonicFor cfg rand sk gi mi, ?_, rfl⟩
      exact List.mem_filter.mpr ⟨hp, by simp [mnemonicFor]⟩
  rw [contributedCount]
  rw [← List.length_map fl Mnemonic.member_index]
  refine length_eq_of_nodup_of_mem_iff hmind
    (List.Nodup.filter _ (List.nodup_range _)) fun mi => ?_
  rw [hmem' mi, List.mem_filter, List.mem_range]

theorem pool_filter_member_nodup [Field F] [DecidableEq F]
    {cfg : SecretSharing} {rand : SplitRandomness F} {sk : F}
    {P : List (Mnemonic F)}
    (hgen : ∀ m ∈ P, genuineMnemonic cfg rand sk m)
    (hnd : (P.map Mnemonic.slot).Nodup) (gi : Nat) :
    ((P.filter fun m => m.group_index = gi).map Mnemonic.member_index).Nodup := by
  have hslotnd : ((P.filter fun m => m.group_index = gi).map
      Mnemonic.slot).Nodup :=
    ((List.filter_sublist P).map Mnemonic.slot).nodup hnd
  rw [List.Nodup, List.pairwise_map] at hslotnd ⊢
  refine hslotnd.imp_of_mem ?_
  intro a b ha hb hab hmi
  have hag : a.group_index = gi := of_decide_eq_true (List.mem_filter.mp ha).2
  have hbg : b.group_index = gi := of_decide_eq_true (List.mem_filter.mp hb).2
  exact hab (by rw [Mnemonic.slot, Mnemonic.slot, hag, hbg, hmi])

theorem pool_inner_recovery [Field F] [DecidableEq F]
    {cfg : SecretSharing} {rand : SplitRandomness F} {sk : F}
    {P : List (Mnemonic F)}
    (hvalid : cfg.valid)
    (hcast : ∀ a, a ≤ cfg.indexBound → ∀ b, b ≤ cfg.indexBound →
      ((a : Nat) : F) = ((b : Nat) : F) → a = b)
    (hgen : ∀ m ∈ P, genuineMnemonic cfg rand sk m)
    (hnd : (P.map Mnemonic.slot).Nodup)
    {gi : Nat} (hgi : gi < cfg.groups.length)
    {m : Mnemonic F} {ms : List (Mnemonic F)}
    (hfl : groupMnemonics P gi = m :: ms)
    (hq : m.member_threshold ≤ (m :: ms).length) :
    lagrangeZeroList (((m :: ms).take m.member_threshold).map fun mn =>
      (((mn.member_index + 1 : Nat) : F), mn.value))
      = groupSecret cfg rand sk gi := by
  rw [groupMnemonics] at hfl
  have hcons : ∀ mn ∈ m :: ms, mn ∈ P ∧ mn.group_index = gi := by
    intro mn hmn
    rw [← hfl] at hmn
    obtain ⟨h1, h2⟩ := List.mem_filter.mp hmn
    exact ⟨h1, of_decide_eq_true h2⟩
  have hshape : ∀ mn ∈ m :: ms,
      mn.member_index < (cfg.groupAt gi).recipient_keys.length ∧
        mn = mnemonicFor cfg rand sk gi mn.member_index := by
    intro mn hmn
    obtain ⟨hmP, hmg⟩ := hcons mn hmn
    obtain ⟨gi', hgi', mi', hmi', rfl⟩ := hgen mn hmP
    have : gi' = gi := hmg
    subst this
    exact ⟨hmi', rfl⟩
  have hthr : m.member_threshold = (cfg.groupAt gi).minimum_required_shares := by
    have := (hshape m (List.mem_cons_self _ _)).2
    rw [this]
    rfl
  have htake : ((m :: ms).take m.member_threshold).length
      = m.member_threshold := by
    rw [List.length_take]
    omega
  have hmemnd : ((m :: ms).map Mnemonic.member_index).Nodup := by
    rw [← hfl]
    exact pool_filter_member_nodup hgen hnd gi
  have htand : (((m :: ms).take m.member_threshold).map
      Mnemonic.member_index).Nodup :=
    ((List.take_sublist _ _).map Mnemonic.member_index).nodup hmemnd
  have htsub : ∀ mn ∈ (m :: ms).take m.member_threshold, mn ∈ m :: ms :=
    fun mn hmn => List.mem_of_mem_take hmn
  have hresult := lagrangeZeroList_recovers_of_nodup
    (memberPolyCoeffs cfg rand sk gi)
    (((m :: ms).take m.member_threshold).map fun mn =>
      (((mn.member_index + 1 : Nat) : F), mn.value))
    (by
      rw [List.length_map, htake, memberPolyCoeffs_length hvalid rand sk hgi,
        hthr])
    (by
      rw [List.map_map]
      have hcomp : (Prod.fst ∘ fun mn : Mnemonic F =>
          (((mn.member_index + 1 : Nat) : F), mn.value))
          = fun mn : Mnemonic F => ((mn.member_index + 1 : Nat) : F) := rfl
      rw [hcomp]
      have hpair : (((m :: ms).take m.member_threshold).map
          Mnemonic.member_index).Nodup := htand
      rw [List.Nodup, List.pairwise_map] at hpair ⊢
      refine hpair.imp_of_mem ?_
      intro a b ha hb hab heq
      have hba : a.member_index < (cfg.groupAt gi).recipient_keys.length :=
        (hshape a (htsub a ha)).1
      have hbb : b.member_index < (cfg.groupAt gi).recipient_keys.length :=
        (hshape b (htsub b hb)).1
      have hbound := members_length_le_indexBound hgi
      have := hcast (a.member_index + 1) (by omega) (b.member_index + 1)
        (by omega) (by exact_mod_cast heq)
      exact hab (by omega)
    )
    (by
      intro p hp
      obtain ⟨mn, hmn, rfl⟩ := List.mem_map.mp hp
      have hsh := (hshape mn (htsub mn hmn)).2
      conv_lhs => rw [hsh]
      rfl)
  rw [hresult]
  rfl

theorem mem_decrypted_iff [Field F] [DecidableEq F] {cfg : SecretSharing}
    {rand : SplitRandomness F} {sk : F} {available : List (String × Nat)}
    {m : Mnemonic F} :
    (m ∈ (generatedShares cfg rand sk).filterMap fun s =>
      available.findSome? fun k => age_decrypt k.2 s.2) ↔
      ∃ gi, gi < cfg.groups.length ∧
        ∃ mi, mi < (cfg.groupAt gi).recipient_keys.length ∧
          (available.map Prod.snd).contains (slotPublicKey cfg gi mi) = true ∧
          m = mnemonicFor cfg rand sk gi mi := by
  rw [List.mem_filterMap]
  constructor
  · rintro ⟨s, hs, hfs⟩
    obtain ⟨gi, hgi, mi, hmi, rfl⟩ := mem_generatedShares_iff.mp hs
    rw [findSome_age_decrypt] at hfs
    have hfs' : (if ((available.map Prod.snd).contains
          (slotPublicKey cfg gi mi)) = true
        then some (mnemonicFor cfg rand sk gi mi) else none) = some m := hfs
    by_cases hc : ((available.map Prod.snd).contains
        (slotPublicKey cfg gi mi)) = true
    · rw [if_pos hc] at hfs'
      refine ⟨gi, hgi, mi, hmi, hc, ?_⟩
      exact (Option.some_inj.mp hfs').symm
    · rw [if_neg hc] at hfs'
      cases hfs'
  · rintro ⟨gi, hgi, mi, hmi, hc, rfl⟩
    refine ⟨(slotShareId cfg gi mi,
      age_encrypt (slotPublicKey cfg gi mi) (mnemonicFor cfg rand sk gi mi)),
      mem_generatedShares_iff.mpr ⟨gi, hgi, mi, hmi, rfl⟩, ?_⟩
    rw [findSome_age_decrypt]
    show (if ((available.map Prod.snd).contains
        (slotPublicKey cfg gi mi)) = true
      then some (mnemonicFor cfg rand sk gi mi) else none)
      = some (mnemonicFor cfg rand sk gi mi)
    rw [if_pos hc]

theorem recoveryPool_genuine [Field F] [DecidableEq F] {cfg : SecretSharing}
    {rand : SplitRandomness F} {sk : F} {available : List (String × Nat)}
    {known : List (Mnemonic F)}
    (hknown : ∀ m ∈ known, genuineMnemonic cfg rand sk m) :
    ∀ m ∈ recoveryPool (generatedShares cfg rand sk) available known,
      genuineMnemonic cfg rand sk m := by
  intro m hm
  rcases List.mem_append.mp (mem_of_mem_dedupeOn hm) with hd | hk
  · obtain ⟨gi, hgi, mi, hmi, -, rfl⟩ := mem_decrypted_iff.mp hd
    exact ⟨gi, hgi, mi, hmi, rfl⟩
  · exact hknown m hk

theorem recoveryPool_slots_nodup [Field F] [DecidableEq F]
    {shares : List (String × Sealed Nat (Mnemonic F))}
    {available : List (String × Nat)} {known : List (Mnemonic F)} :
    ((recoveryPool shares available known).map Mnemonic.slot).Nodup :=
  nodup_map_dedupeOn

theorem recoveryPool_mem_iff [Field F] [DecidableEq F] {cfg : SecretSharing}
    {rand : SplitRandomness F} {sk : F} {available : List (String × Nat)}
    {known : List (Mnemonic F)}
    (hknown : ∀ m ∈ known, genuineMnemonic cfg rand sk m)
    {gi mi : Nat} (hgi : gi < cfg.groups.length)
    (hmi : mi < (cfg.groupAt gi).recipient_keys.length) :
    mnemonicFor cfg rand sk gi mi
        ∈ recoveryPool (generatedShares cfg rand sk) available known ↔
      coveredSlotB cfg (available.map Prod.snd) known gi mi = true := by
  constructor
  · intro hm
    rcases List.mem_append.mp (mem_of_mem_dedupeOn hm) with hd | hk
    · obtain ⟨gi', hgi', mi', hmi', hc, heq⟩ := mem_decrypted_iff.mp hd
      obtain ⟨hg, hm'⟩ := mnemonicFor_injective_slot heq
      rw [coveredSlotB, Bool.or_eq_true]
      refine Or.inl ?_
      rw [hg, hm']
      exact hc
    · rw [coveredSlotB, Bool.or_eq_true]
      refine Or.inr ?_
      rw [List.any_eq_true]
      exact ⟨mnemonicFor cfg rand sk gi mi, hk, by simp [Mnemonic.slot, mnemonicFor]⟩
  · intro hcov
    have hin : mnemonicFor cfg rand sk gi mi
        ∈ ((generatedShares cfg rand sk).filterMap fun s =>
            available.findSome? fun k => age_decrypt k.2 s.2) ++ known := by
      rw [coveredSlotB, Bool.or_eq_true] at hcov
      rcases hcov with hc | hany
      · exact List.mem_append_left _
          (mem_decrypted_iff.mpr ⟨gi, hgi, mi, hmi, hc, rfl⟩)
      · obtain ⟨m', hm', hslot⟩ := List.any_eq_true.mp hany
        obtain ⟨gi₂, hgi₂, mi₂, hmi₂, rfl⟩ := hknown m' hm'
        have hslot' : ((gi₂, mi₂) : Nat × Nat) = (gi, mi) :=
          of_decide_eq_true hslot
        have hg2 : gi₂ = gi := congrArg Prod.fst hslot'
        have hm2 : mi₂ = mi := congrArg Prod.snd hslot'
        subst hg2
        subst hm2
        exact List.mem_append_right _ hm'
    have hslotmem : ((gi, mi) : Nat × Nat)
        ∈ (recoveryPool (generatedShares cfg rand sk) available known).map
            Mnemonic.slot := by
      rw [recoveryPool, mem_map_dedupeOn]
      refine List.mem_map.mpr ⟨mnemonicFor cfg rand sk gi mi, hin, rfl⟩
    obtain ⟨y, hy, hyslot⟩ := List.mem_map.mp hslotmem
    obtain ⟨gi₃, hgi₃, mi₃, hmi₃, rfl⟩ := recoveryPool_genuine hknown y hy
    have h1 : gi₃ = gi := congrArg Prod.fst hyslot
    have h2 : mi₃ = mi := congrArg Prod.snd hyslot
    subst h1
    subst h2
    exact hy

theorem recover_nil_eq [Field F] [DecidableEq F]
    (shares : List (String × Sealed Nat (Mnemonic F)))
    (available : List (String × Nat)) (known : List (Mnemonic F))
    (h : recoveryPool shares available known = []) :
    recover_object_decryption_key_from_encrypted_shares shares available known
      = .error .insufficientShares := by
  unfold recover_object_decryption_key_from_encrypted_shares
  rw [h]

theorem recover_cons_eq [Field F] [DecidableEq F]
    (shares : List (String × Sealed Nat (Mnemonic F)))
    (available : List (String × Nat)) (known : List (Mnemonic F))
    {m₀ : Mnemonic F} {rest : List (Mnemonic F)}
    (h : recoveryPool shares available known = m₀ :: rest) :
    recover_object_decryption_key_from_encrypted_shares shares available known
      = if m₀.group_threshold ≤ (qualifiedGroups (m₀ :: rest)).length then
          .ok (lagrangeZeroList
            (((qualifiedGroups (m₀ :: rest)).take m₀.group_threshold).filterMap
              (recoverGroupPoint (m₀ :: rest))))
        else .error .insufficientShares := by
  unfold recover_object_decryption_key_from_encrypted_shares
  rw [h]

theorem recover_generatedShares_eq [Field F] [DecidableEq F]
    (cfg : SecretSharing) (rand : SplitRandomness F) (sk : F)
    (available : List (String × Nat)) (known : List (Mnemonic F))
    (hvalid : cfg.valid)
    (hknown : ∀ m ∈ known, genuineMnemonic cfg rand sk m)
    (hcast : ∀ a, a ≤ cfg.indexBound → ∀ b, b ≤ cfg.indexBound →
      ((a : Nat) : F) = ((b : Nat) : F) → a = b) :
    recover_object_decryption_key_from_encrypted_shares
      (generatedShares cfg rand sk) available known
      = if sufficientCoalition cfg (available.map Prod.snd) known
        then Except.ok sk
        else Except.error SecretRecoveryError.insufficientShares := by
  set P := recoveryPool (generatedShares cfg rand sk) available known
    with hPdef
  have hgen : ∀ m ∈ P, genuineMnemonic cfg rand sk m :=
    recoveryPool_genuine hknown
  have hnd : (P.map Mnemonic.slot).Nodup := recoveryPool_slots_nodup
  have hmem : ∀ gi mi, gi < cfg.groups.length →
      mi < (cfg.groupAt gi).recipient_keys.length →
      (mnemonicFor cfg rand sk gi mi ∈ P ↔
        coveredSlotB cfg (available.map Prod.snd) known gi mi = true) :=
    fun gi mi hgi hmi => recoveryPool_mem_iff hknown hgi hmi
  have hcount : ∀ gi, gi < cfg.groups.length →
      (groupMnemonics P gi).length
        = contributedCount cfg (available.map Prod.snd) known gi :=
    fun gi hgi => pool_filter_group_length hgen hnd hmem hgi
  have hGmem : ∀ gi : Nat, gi ∈ dedupeOn id (P.map (·.group_index)) ↔
      ∃ m ∈ P, m.group_index = gi := by
    intro gi
    have h1 : gi ∈ dedupeOn id (P.map (·.group_index)) ↔
        gi ∈ (dedupeOn id (P.map (·.group_index))).map id := by
      rw [List.map_id]
    rw [h1, mem_map_dedupeOn, List.map_id, List.mem_map]
  have hGnd : (dedupeOn id (P.map (·.group_index))).Nodup := by
    have h := nodup_map_dedupeOn (f := (id : Nat → Nat))
      (l := P.map (·.group_index))
    rwa [List.map_id] at h
  have hgmne : ∀ gi m, m ∈ P → m.group_index = gi →
      mnemonicFor cfg rand sk gi m.member_index ∈ groupMnemonics P gi := by
    intro gi m hmP hmg
    obtain ⟨gi', hgi', mi', hmi', rfl⟩ := hgen m hmP
    have hg : gi' = gi := hmg
    subst hg
    exact List.mem_filter.mpr ⟨hmP, by simp [mnemonicFor]⟩
  have hqual_mem : ∀ gi : Nat, gi ∈ qualifiedGroups P ↔
      (gi < cfg.groups.length ∧
        (cfg.groupAt gi).minimum_required_shares ≤
          contributedCount cfg (available.map Prod.snd) known gi) := by
    intro gi
    rw [qualifiedGroups, List.mem_filter, hGmem]
    constructor
    · rintro ⟨⟨m, hmP, hmg⟩, hpred⟩
      obtain ⟨gi', hgi', mi', hmi', hmeq⟩ := hgen m hmP
      have hg : gi' = gi := by rw [hmeq] at hmg; exact hmg
      subst hg
      refine ⟨hgi', ?_⟩
      rcases hgm : groupMnemonics P gi' with _ | ⟨m₁, ms₁⟩
      · exfalso
        have hne := hgmne gi' m hmP hmg
        rw [hgm] at hne
        cases hne
      · rw [hgm] at hpred
        have hp := of_decide_eq_true hpred
        obtain ⟨hm₁P, hm₁g⟩ : m₁ ∈ P ∧ m₁.group_index = gi' := by
          have hmm : m₁ ∈ groupMnemonics P gi' := by
            rw [hgm]; exact List.mem_cons_self _ _
          obtain ⟨h1, h2⟩ := List.mem_filter.mp hmm
          exact ⟨h1, of_decide_eq_true h2⟩
        obtain ⟨gi₂, hgi₂, mi₂, hmi₂, hm₁eq⟩ := hgen m₁ hm₁P
        have hg₂ : gi₂ = gi' := by rw [hm₁eq] at hm₁g; exact hm₁g
        subst hg₂
        have hthr : m₁.member_threshold
            = (cfg.groupAt gi₂).minimum_required_shares := by
          rw [hm₁eq]
          rfl
        rw [hthr] at hp
        have hlen : (m₁ :: ms₁).length
            = contributedCount cfg (available.map Prod.snd) known gi₂ := by
          rw [← hgm]
          exact hcount _ hgi₂
        rw [hlen] at hp
        exact hp
    · rintro ⟨hgi, hle⟩
      have hpos : 1 ≤ contributedCount cfg (available.map Prod.snd) known gi :=
        le_trans (minimum_required_shares_pos hvalid hgi) hle
      have hex : ∃ mi, mi ∈ (List.range
          (cfg.groupAt gi).recipient_keys.length).filter fun mi =>
            coveredSlotB cfg (available.map Prod.snd) known gi mi := by
        apply List.exists_mem_of_length_pos
        rw [← contributedCount]
        omega
      obtain ⟨mi, hmif⟩ := hex
      obtain ⟨hmir, hmic⟩ := List.mem_filter.mp hmif
      rw [List.mem_range] at hmir
      have hmP : mnemonicFor cfg rand sk gi mi ∈ P :=
        (hmem gi mi hgi hmir).mpr hmic
      refine ⟨⟨mnemonicFor cfg rand sk gi mi, hmP, by simp [mnemonicFor]⟩, ?_⟩
      rcases hgm : groupMnemonics P gi with _ | ⟨m₁, ms₁⟩
      · exfalso
        have hne := hgmne gi (mnemonicFor cfg rand sk gi mi) hmP
          (by simp [mnemonicFor])
        rw [hgm] at hne
        cases hne
      · show decide (m₁.member_threshold ≤ (m₁ :: ms₁).length) = true
        obtain ⟨hm₁P, hm₁g⟩ : m₁ ∈ P ∧ m₁.group_index = gi := by
          have hmm : m₁ ∈ groupMnemonics P gi := by
            rw [hgm]; exact List.mem_cons_self _ _
          obtain ⟨h1, h2⟩ := List.mem_filter.mp hmm
          exact ⟨h1, of_decide_eq_true h2⟩
        obtain ⟨gi₂, hgi₂, mi₂, hmi₂, hm₁eq⟩ := hgen m₁ hm₁P
        have hg₂ : gi₂ = gi := by rw [hm₁eq] at hm₁g; exact hm₁g
        subst hg₂
        have hthr : m₁.member_threshold
            = (cfg.groupAt gi₂).minimum_required_shares := by
          rw [hm₁eq]
          rfl
        have hlen : (m₁ :: ms₁).length
            = contributedCount cfg (available.map Prod.snd) known gi₂ := by
          rw [← hgm]
          exact hcount _ hgi₂
        rw [decide_eq_true_eq, hthr, hlen]
        exact hle
  have hqual_nd : (qualifiedGroups P).Nodup := hGnd.filter _
  have hqual_len : (qualifiedGroups P).length
      = ((List.range cfg.groups.length).filter fun gi =>
          (cfg.groupAt gi).minimum_required_shares ≤
            contributedCount cfg (available.map Prod.snd) known gi).length := by
    refine length_eq_of_nodup_of_mem_iff hqual_nd
      ((List.nodup_range _).filter _) fun gi => ?_
    rw [hqual_mem, List.mem_filter, List.mem_range, decide_eq_true_eq]
  have hsuff_iff : sufficientCoalition cfg (available.map Prod.snd) known ↔
      cfg.minimum_required_groups ≤ (qualifiedGroups P).length := by
    rw [sufficientCoalition, hqual_len]
  rcases hP : P with _ | ⟨m₀, rest⟩
  · -- empty pool: no group can qualify, recovery errors
    rw [hP] at hsuff_iff
    have hq0 : qualifiedGroups ([] : List (Mnemonic F)) = [] := by
      rw [qualifiedGroups, List.map_nil, dedupeOn, List.filter_nil]
    rw [hq0] at hsuff_iff
    have hnsuf : ¬ sufficientCoalition cfg (available.map Prod.snd) known := by
      intro hs
      have := hsuff_iff.mp hs
      have hG := hvalid.1
      simp at this
      omega
    rw [if_neg hnsuf]
    exact recover_nil_eq _ _ _ (hPdef.symm.trans hP)
  · rw [hP] at hgen hnd hcount hqual_mem hqual_nd hqual_len hsuff_iff
    have hm₀P : m₀ ∈ m₀ :: rest := List.mem_cons_self _ _
    obtain ⟨g₀, hg₀, i₀, hi₀, hm₀eq⟩ := hgen m₀ hm₀P
    have hgt : m₀.group_threshold = cfg.minimum_required_groups := by
      rw [hm₀eq]
      rfl
    rw [recover_cons_eq _ _ _ (hPdef.symm.trans hP), hgt]
    by_cases hsuf : sufficientCoalition cfg (available.map Prod.snd) known
    · rw [if_pos hsuf, if_pos (hsuff_iff.mp hsuf)]
      have hguard := hsuff_iff.mp hsuf
      have hpoint : ∀ gi ∈ (qualifiedGroups (m₀ :: rest)).take
          cfg.minimum_required_groups,
          recoverGroupPoint (m₀ :: rest) gi
            = some (((gi + 1 : Nat) : F), groupSecret cfg rand sk gi) := by
        intro gi hgiT
        have hgiQ := List.mem_of_mem_take hgiT
        obtain ⟨hgil, hgic⟩ := (hqual_mem gi).mp hgiQ
        rcases hgm : groupMnemonics (m₀ :: rest) gi with _ | ⟨m₁, ms₁⟩
        · exfalso
          have hpos : 1 ≤ contributedCount cfg (available.map Prod.snd)
              known gi :=
            le_trans (minimum_required_shares_pos hvalid hgil) hgic
          have h0 := hcount gi hgil
          rw [hgm] at h0
          simp at h0
          omega
        · rw [recoverGroupPoint, hgm]
          obtain ⟨hm₁P, hm₁g⟩ : m₁ ∈ m₀ :: rest ∧ m₁.group_index = gi := by
            have hmm : m₁ ∈ groupMnemonics (m₀ :: rest) gi := by
              rw [hgm]; exact List.mem_cons_self _ _
            obtain ⟨h1, h2⟩ := List.mem_filter.mp hmm
            exact ⟨h1, of_decide_eq_true h2⟩
          obtain ⟨gi₂, hgi₂, mi₂, hmi₂, hm₁eq⟩ := hgen m₁ hm₁P
          have hg₂ : gi₂ = gi := by rw [hm₁eq] at hm₁g; exact hm₁g
          subst hg₂
          have hthr : m₁.member_threshold
              = (cfg.groupAt gi₂).minimum_required_shares := by
            rw [hm₁eq]
            rfl
          have hlen₁ : (m₁ :: ms₁).length
              = contributedCount cfg (available.map Prod.snd) known gi₂ := by
            rw [← hgm]
            exact hcount _ hgi₂
          have hq : m₁.member_threshold ≤ (m₁ :: ms₁).length := by
            rw [hthr, hlen₁]
            exact hgic
          have hinner := pool_inner_recovery hvalid hcast hgen hnd hgi₂
            hgm hq
          show some (((gi₂ + 1 : Nat) : F),
              lagrangeZeroList (((m₁ :: ms₁).take m₁.member_threshold).map
                fun mn => (((mn.member_index + 1 : Nat) : F), mn.value)))
            = some (((gi₂ + 1 : Nat) : F), groupSecret cfg rand sk gi₂)
          rw [hinner]
      rw [filterMap_eq_map_of_forall_some hpoint]
      have htlen : ((qualifiedGroups (m₀ :: rest)).take
          cfg.minimum_required_groups).length
          = cfg.minimum_required_groups := by
        rw [List.length_take]
        omega
      have houter := lagrangeZeroList_recovers_of_nodup
        (groupPolyCoeffs cfg rand sk)
        (((qualifiedGroups (m₀ :: rest)).take
            cfg.minimum_required_groups).map fun gi =>
          (((gi + 1 : Nat) : F), groupSecret cfg rand sk gi))
        (by
          rw [List.length_map, htlen, groupPolyCoeffs_length hvalid rand sk])
        (by
          rw [List.map_map]
          have hcomp : (Prod.fst ∘ fun gi : Nat =>
              (((gi + 1 : Nat) : F), groupSecret cfg rand sk gi))
              = fun gi : Nat => ((gi + 1 : Nat) : F) := rfl
          rw [hcomp]
          have htnd : ((qualifiedGroups (m₀ :: rest)).take
              cfg.minimum_required_groups).Nodup :=
            (List.take_sublist _ _).nodup hqual_nd
          rw [List.Nodup, List.pairwise_map]
          rw [List.Nodup] at htnd
          refine htnd.imp_of_mem ?_
          intro a b ha hb hab heq
          have hal : a < cfg.groups.length :=
            ((hqual_mem a).mp (List.mem_of_mem_take ha)).1
          have hbl : b < cfg.groups.length :=
            ((hqual_mem b).mp (List.mem_of_mem_take hb)).1
          have hbound := groups_length_le_indexBound cfg
          have := hcast (a + 1) (by omega) (b + 1) (by omega)
            (by exact_mod_cast heq)
          exact hab (by omega))
        (by
          intro p hp
          obtain ⟨gi, hgi, rfl⟩ := List.mem_map.mp hp
          rfl)
      rw [houter]
      rfl
    · rw [if_neg hsuf, if_neg (fun h => hsuf (hsuff_iff.mpr h))]

/-- C2: for every secret-sharing configuration with globally-unique share
identifiers and public keys (and positive thresholds), the shares
produced by `generate_encrypted_shares` for a secret key `sk` are
recovered by `recover_object_decryption_key_from_encrypted_shares`
exactly for sufficient coalitions: whenever the available secret keys
plus the known mnemonics reach at least `minimum_required_groups` groups
each contributing at least their `minimum_required_shares`, recovery
returns `sk`, and every insufficient coalition raises
`SecretRecoveryError`.  (The interpolation points must be distinct in
`F`, which `hcast` guarantees.) -/
theorem generate_recover_roundtrip {F : Type} [Field F] [DecidableEq F]
    (cfg : SecretSharing) (rand : SplitRandomness F) (sk : F)
    (available : List (String × Nat)) (known : List (Mnemonic F))
    (hvalid : cfg.valid)
    (hknown : ∀ m ∈ known, genuineMnemonic cfg rand sk m)
    (hcast : ∀ a, a ≤ cfg.indexBound → ∀ b, b ≤ cfg.indexBound →
      ((a : Nat) : F) = ((b : Nat) : F) → a = b) :
    generate_encrypted_shares cfg rand sk
      = Except.ok (generatedShares cfg rand sk)
    ∧ (sufficientCoalition cfg (available.map Prod.snd) known →
        recover_object_decryption_key_from_encrypted_shares
          (generatedShares cfg rand sk) available known = Except.ok sk)
    ∧ (¬ sufficientCoalition cfg (available.map Prod.snd) known →
        recover_object_decryption_key_from_encrypted_shares
          (generatedShares cfg rand sk) available known
          = Except.error SecretRecoveryError.insufficientShares) := by
  refine ⟨by rw [generate_encrypted_shares, if_pos hvalid], fun h => ?_,
    fun h => ?_⟩
  · rw [recover_generatedShares_eq cfg rand sk available known hvalid hknown
      hcast, if_pos h]
  · rw [recover_generatedShares_eq cfg rand sk available known hvalid hknown
      hcast, if_neg h]

/-- Witness for C2: over `ZMod 11`, the example two-group configuration
recovers the key `9` from Dlique's and Ali's secret keys. -/
theorem generate_recover_roundtrip_witness :
    exampleSecretSharing.valid
    ∧ sufficientCoalition exampleSecretSharing
        ([("Dlique", 4), ("Ali", 1)].map Prod.snd)
        ([] : List (Mnemonic (ZMod 11)))
    ∧ recover_object_decryption_key_from_encrypted_shares
        (generatedShares exampleSecretSharing exampleRandomness (9 : ZMod 11))
        [("Dlique", 4), ("Ali", 1)] [] = Except.ok (9 : ZMod 11) := by
  refine ⟨by decide, by decide, ?_⟩
  exact (generate_recover_roundtrip exampleSecretSharing exampleRandomness
    (9 : ZMod 11) [("Dlique", 4), ("Ali", 1)] []
    (by decide) (by simp) (by decide)).2.1 (by decide)

/-- C3: rollover leaves the object-decryption key and the set of
backed-up SWHIDs unchanged — only `decryption_key_shares` in the
manifest changes, the key recovered from the new shares by any
sufficient coalition equals the original object-decryption key, and the
bundle's objects are not re-encrypted, so each of them still decrypts
with that key. -/
theorem rollover_preserves_key_and_swhids {F : Type} [Field F]
    [DecidableEq F]
    (b : RecoveryBundleFile F) (key : F) (cfg : SecretSharing)
    (rand : SplitRandomness F) (b' : RecoveryBundleFile F)
    (hvalid : cfg.valid)
    (hroll : rollover b key cfg rand = Except.ok b')
    (hcast : ∀ a, a ≤ cfg.indexBound → ∀ b, b ≤ cfg.indexBound →
      ((a : Nat) : F) = ((b : Nat) : F) → a = b) :
    b' = { b with decryption_key_shares := generatedShares cfg rand key }
    ∧ b'.swhids = b.swhids
    ∧ b'.objects = b.objects
    ∧ b'.version = b.version
    ∧ b'.removal_identifier = b.removal_identifier
    ∧ (∀ available known,
        (∀ m ∈ known, genuineMnemonic cfg rand key m) →
        sufficientCoalition cfg (available.map Prod.snd) known →
        recover_object_decryption_key_from_encrypted_shares
          b'.decryption_key_shares available known = Except.ok key)
    ∧ (∀ e ∈ b'.objects, e.2.recipient = key →
        age_decrypt key e.2 = some e.2.payload) := by
  have hb' : b' = { b with
      decryption_key_shares := generatedShares cfg rand key } := by
    rw [rollover, generate_encrypted_shares, if_pos hvalid] at hroll
    exact (Option.some_inj.mp (congrArg Except.toOption hroll)).symm
  subst hb'
  refine ⟨rfl, rfl, rfl, rfl, rfl, fun available known hknown hsuf => ?_,
    fun e he hrec => ?_⟩
  · show recover_object_decryption_key_from_encrypted_shares
      (generatedShares cfg rand key) available known = Except.ok key
    rw [recover_generatedShares_eq cfg rand key available known hvalid
      hknown hcast, if_pos hsuf]
  · rw [age_decrypt, if_pos hrec]

/-- Witness for C3: rolling over the example bundle to the example
configuration keeps its SWHID list and objects, and Dlique's and Ali's
keys recover the original object-decryption key `9` from the new
shares. -/
theorem rollover_preserves_key_and_swhids_witness :
    rollover exampleBundle (9 : ZMod 11) exampleSecretSharing
        exampleRandomness
      = Except.ok { exampleBundle with
          decryption_key_shares := generatedShares exampleSecretSharing
            exampleRandomness (9 : ZMod 11) }
    ∧ ({ exampleBundle with
          decryption_key_shares := generatedShares exampleSecretSharing
            exampleRandomness (9 : ZMod 11) } :
        RecoveryBundleFile (ZMod 11)).swhids = exampleBundle.swhids
    ∧ recover_object_decryption_key_from_encrypted_shares
        ({ exampleBundle with
            decryption_key_shares := generatedShares exampleSecretSharing
              exampleRandomness (9 : ZMod 11) } :
          RecoveryBundleFile (ZMod 11)).decryption_key_shares
        [("Dlique", 4), ("Ali", 1)] [] = Except.ok (9 : ZMod 11) := by
  have hroll : rollover exampleBundle (9 : ZMod 11) exampleSecretSharing
      exampleRandomness
      = Except.ok { exampleBundle with
          decryption_key_shares := generatedShares exampleSecretSharing
            exampleRandomness (9 : ZMod 11) } := by
    rw [rollover, generate_encrypted_shares,
      if_pos (by decide : exampleSecretSharing.valid)]
    rfl
  have h := rollover_preserves_key_and_swhids exampleBundle (9 : ZMod 11)
    exampleSecretSharing exampleRandomness _ (by decide) hroll (by decide)
  exact ⟨hroll, h.2.1, h.2.2.2.2.2.1 [("Dlique", 4), ("Ali", 1)] []
    (by simp) (by decide)⟩

/-- C10: when the directory holding the bundle is not writable, rollover
fails with an `OSError` and the bundle file on disk is left unchanged —
it keeps its previous shares (hence share ids), and with the original
object-decryption key every previously stored object is still
readable. -/
theorem rollover_on_disk_write_failure {F : Type} [Field F] [DecidableEq F]
    (fs : BundleFileSystem F) (path : String) (key : F)
    (cfg : SecretSharing) (rand : SplitRandomness F)
    (b : RecoveryBundleFile F)
    (hro : fs.dir_writable = false)
    (hb : fs.bundles path = some b)
    (hvalid : cfg.valid) :
    rollover_on_disk fs path key cfg rand = (fs, some RolloverFailure.osError)
    ∧ (rollover_on_disk fs path key cfg rand).1.bundles path = some b
    ∧ ((rollover_on_disk fs path key cfg rand).1.bundles path).map
        RecoveryBundleFile.shareIds = some b.shareIds
    ∧ (∀ e ∈ b.objects, e.2.recipient = key →
        age_decrypt key e.2 = some e.2.payload) := by
  have hroll : rollover b key cfg rand = Except.ok { b with
      decryption_key_shares := generatedShares cfg rand key } := by
    rw [rollover, generate_encrypted_shares, if_pos hvalid]
    rfl
  have hwrite : writeBundleFile fs path { b with
      decryption_key_shares := generatedShares cfg rand key }
      = Except.error "Permission denied" := by
    rw [writeBundleFile, if_neg (by rw [hro]; exact Bool.false_ne_true)]
  have hmain : rollover_on_disk fs path key cfg rand
      = (fs, some RolloverFailure.osError) := by
    rw [rollover_on_disk, hb]
    show (match rollover b key cfg rand with
      | Except.error _ => (fs, some RolloverFailure.validationError)
      | Except.ok newBundle =>
        match writeBundleFile fs path newBundle with
        | Except.error _ => (fs, some RolloverFailure.osError)
        | Except.ok fs' => (fs', none))
      = (fs, some RolloverFailure.osError)
    rw [hroll]
    show (match writeBundleFile fs path { b with
        decryption_key_shares := generatedShares cfg rand key } with
      | Except.error _ => (fs, some RolloverFailure.osError)
      | Except.ok fs' => (fs', none))
      = (fs, some RolloverFailure.osError)
    rw [hwrite]
  refine ⟨hmain, ?_, ?_, fun e he hrec => by rw [age_decrypt, if_pos hrec]⟩
  · rw [hmain]
    exact hb
  · rw [hmain]
    rw [hb]
    rfl

/-- Witness for C10 at the read-only example directory. -/
theorem rollover_on_disk_write_failure_witness :
    readOnlyFs.dir_writable = false
    ∧ readOnlyFs.bundles "rollover.swh-recovery-bundle" = some exampleBundle
    ∧ rollover_on_disk readOnlyFs "rollover.swh-recovery-bundle" (9 : ZMod 11)
        exampleSecretSharing exampleRandomness
      = (readOnlyFs, some RolloverFailure.osError) :=
  ⟨rfl, rfl,
    (rollover_on_disk_write_failure readOnlyFs "rollover.swh-recovery-bundle"
      (9 : ZMod 11) exampleSecretSharing exampleRandomness exampleBundle
      rfl rfl (by decide)).1⟩

/-- C6: for any subgraph, `select_ordered` emits the subgraph's vertices
grouped by object type in exactly the order Origin, Snapshot, Release,
Revision, Directory, Content, ExtID, RawExtrinsicMetadata: the emitted
list is a permutation of the SWHID-carrying vertices, and along it the
object-type rank in that fixed order is monotone. -/
theorem select_ordered_grouped_by_object_type (g : Subgraph) :
    (g.select_ordered).Pairwise (fun v w => v.rank ≤ w.rank)
    ∧ (g.select_ordered).Perm (g.vs.filter fun v => v.swhid.isSome) := by
  constructor
  · exact flatMap_filter_pairwise g.vs selectOrderedTypes (by decide)
  · refine (flatMap_filter_perm g.vs selectOrderedTypes (by decide)).trans ?_
    have : (g.vs.filter fun v =>
        selectOrderedTypes.any fun t => v.swhid.map (·.objectType) = some t)
        = g.vs.filter fun v => v.swhid.isSome := by
      refine List.filter_congr fun v _ => ?_
      rcases hv : v.swhid with _ | s
      · rfl
      · simp only [selectOrderedTypes, hv]
        cases ht : s.objectType <;> simp [ht]
    rw [this]

end SwhAlter
